import Mathlib

/-!
# Verification of the `rbtree` repository (Go)

Shallow embedding of `src/rbtree.go` and `src/persistent.go`.

The Go implementation is a pointer-based red-black tree (CLRS layout) with
parent pointers.  Parent pointers are used only to walk back up the
insertion/deletion path during fixup, so the embedding represents a node's
ancestry as an explicit path context (`PathE` entries, innermost first); the
tree itself is the inductive `RBNode`.  `zip` rebuilds the whole tree from a
focused subtree and its context, which is exactly what the Go code's in-place
link surgery amounts to.

Go declares `type color bool` with `red = true`, `black = false`; colors are
embedded as `Bool` with the same convention.  Go `int` keys are embedded as
`Int` (the code performs no key arithmetic except comparisons and `%`, which
is Go's truncated remainder, i.e. `Int.tmod`).  Go `interface{}` values are a
type parameter `α`; `Get`'s `(interface{}, bool)` result is `Option α`.
-/

set_option maxHeartbeats 1000000

namespace RBTreeGo

/-- `red = true` as in `type color bool; red color = true` (rbtree.go:8-13). -/
@[reducible] def red : Bool := true

/-- `black = false` as in rbtree.go:8-13. -/
@[reducible] def black : Bool := false

/-- A tree of `node` records (rbtree.go:16-23) without the parent field:
key, value, color, left child, right child; `nil` is the absent child. -/
inductive RBNode (α : Type) where
  | nil : RBNode α
  | node (key : Int) (value : α) (c : Bool) (left : RBNode α) (right : RBNode α) : RBNode α
  deriving DecidableEq, Repr

namespace RBNode

variable {α : Type}

/-- `getColor` (rbtree.go:66-71): `nil` reads as black. -/
def getColor : RBNode α → Bool
  | nil => black
  | node _ _ c _ _ => c

/-- One step of ancestry of a focused subtree: the parent node's fields plus
the sibling subtree.  `goLeft` means the focus is the parent's left child. -/
inductive PathE (α : Type) where
  | goLeft (key : Int) (value : α) (c : Bool) (right : RBNode α) : PathE α
  | goRight (key : Int) (value : α) (c : Bool) (left : RBNode α) : PathE α
  deriving DecidableEq, Repr

/-- A full ancestry path, innermost (immediate parent) first. -/
abbrev Ctx (α : Type) := List (PathE α)

/-- Rebuild the full tree from a focused subtree and its ancestry path. -/
def zip : RBNode α → Ctx α → RBNode α
  | t, [] => t
  | t, .goLeft k v c r :: rest => zip (node k v c t r) rest
  | t, .goRight k v c l :: rest => zip (node k v c l t) rest

/-- Force the root of a subtree black (`t.root.color = black`, and the
`x.color = black` tail of `deleteFixup`).  On `nil` this is a no-op, matching
the `if x != nil` guard at rbtree.go:326-328. -/
def blacken : RBNode α → RBNode α
  | nil => nil
  | node k v _ l r => node k v black l r

/-- The color stored in a path entry, i.e. the parent node's color. -/
def PathE.c : PathE α → Bool
  | .goLeft _ _ c _ => c
  | .goRight _ _ c _ => c

/-- Rebuild the parent node described by a path entry, recolored black, with
the focus `z` on the entry's side (`z.parent.color = black` in the uncle-red
case of `insertFixup`). -/
def PathE.fillBlack : PathE α → RBNode α → RBNode α
  | .goLeft k v _ sib, z => node k v black z sib
  | .goRight k v _ sib, z => node k v black sib z

/-- `insertFixup` (rbtree.go:155-192) translated to the path representation.
The Go loop runs while the parent exists and is red; the parent is the
context head `e`, the grandparent the next entry `g`, and the uncle is `g`'s
sibling subtree.  Case analysis follows the source exactly: uncle red →
recolor parent/uncle black and grandparent red, continue from the
grandparent (two entries popped); uncle black → if the focus is an inner
child, rotate at the parent; then recolor parent black / grandparent red and
rotate at the grandparent, after which the loop's condition fails (the new
parent is black).  Finally the root is unconditionally forced black.
When the parent is red but has no grandparent the Go code dereferences a nil
pointer (`z.parent.parent`); that state is unreachable from a valid tree (a
red node is never the root) and the translation just rebuilds and blackens. -/
def insertFixup : RBNode α → Ctx α → RBNode α
  | z, [] => blacken (zip z [])
  | z, e :: rest =>
    if e.c = red then
      match rest with
      | [] => blacken (zip z (e :: rest))  -- Go: nil grandparent dereference; unreachable
      | g :: rest' =>
        match g with
        | .goLeft gk gv _ gsib =>
          -- the parent is the grandparent's left child; uncle = gsib (right)
          if getColor gsib = red then
            insertFixup (node gk gv red (e.fillBlack z) (blacken gsib)) rest'
          else
            match e with
            | .goLeft pk pv _ psib =>
              -- left-left: recolor parent black / grandparent red, rotate right at g
              blacken (zip (node pk pv black z (node gk gv red psib gsib)) rest')
            | .goRight pk pv pc psib =>
              -- left-right: rotate left at the parent, then as above
              match z with
              | nil => blacken (zip z (e :: g :: rest'))  -- unreachable: focus is a real node
              | node zk zv _ zl zr =>
                blacken (zip (node zk zv black (node pk pv pc psib zl) (node gk gv red zr gsib)) rest')
        | .goRight gk gv _ gsib =>
          -- the parent is the grandparent's right child; uncle = gsib (left)
          if getColor gsib = red then
            insertFixup (node gk gv red (blacken gsib) (e.fillBlack z)) rest'
          else
            match e with
            | .goRight pk pv _ psib =>
              -- right-right: rotate left at g
              blacken (zip (node pk pv black (node gk gv red gsib psib) z) rest')
            | .goLeft pk pv pc psib =>
              -- right-left: rotate right at the parent first
              match z with
              | nil => blacken (zip z (e :: g :: rest'))  -- unreachable
              | node zk zv _ zl zr =>
                blacken (zip (node zk zv black (node gk gv red gsib zl) (node pk pv pc zr psib)) rest')
    else blacken (zip z (e :: rest))

/-- The descent loop of `Insert` (rbtree.go:129-153): walk down comparing
keys (`<` then `>`), remembering the path; on an equal key overwrite the
value in place and return (no fixup, no root blackening); on `nil` attach a
fresh red node (the arena's `newNode` returns a red node with cleared links)
and run the fixup. -/
def insertDescend : RBNode α → Int → α → Ctx α → RBNode α
  | nil, k, v, ctx => insertFixup (node k v red nil nil) ctx
  | node k' v' c l r, k, v, ctx =>
    if k < k' then insertDescend l k v (.goLeft k' v' c r :: ctx)
    else if k' < k then insertDescend r k v (.goRight k' v' c l :: ctx)
    else zip (node k' v c l r) ctx

/-- `RBTree.Insert` (rbtree.go:129-153). -/
def Insert (t : RBNode α) (k : Int) (v : α) : RBNode α :=
  insertDescend t k v []

/-- `RBTree.Get` (rbtree.go:194-206): BST descent, `(value, true)` on an
exact match, `(nil, false)` otherwise. -/
def Get : RBNode α → Int → Option α
  | nil, _ => none
  | node k' v' _ l r, k =>
    if k < k' then Get l k
    else if k' < k then Get r k
    else some v'

/-- `deleteFixup` (rbtree.go:259-329) in the path representation.  The Go
loop runs while the focus is not the root (context non-empty) and reads
black (`nil` reads black); `parent` is the context head.  For a left-child
focus the sibling is `w = parent.right`; cases follow the source:
(a) `w` red → recolor `w` black / parent red, rotate left at the parent,
refresh `w := parent.right` and fall through to the cases below in the same
iteration; (b) both of `w`'s children black → redden `w`, move the focus up
to the parent; (c) `w.right` black (so `w.left` red) → recolor `w.left`
black / `w` red, rotate right at `w`, refresh `w`, fall through to (d);
(d) `w.right` red → `w` takes the parent's color, parent and `w.right` turn
black, rotate left at the parent, set the focus to the root and exit.
After the loop the focus, if non-nil, is forced black.  Where the Go code
would dereference a nil sibling (unreachable in a valid tree) the
translation rebuilds the tree unchanged. -/
def deleteFixup (x : RBNode α) (ctx : Ctx α) : RBNode α :=
  match ctx with
  | [] => blacken x
  | e :: rest =>
    if getColor x = red then zip (blacken x) (e :: rest)
    else
      match e with
      | .goLeft pk pv pc psib =>
        match psib with
        | nil => zip x (e :: rest)  -- Go reads w.left on a nil w; unreachable
        | node wk wv wc wl wr =>
          if wc = red then
            -- case (a): after the recolor and rotateLeft(parent), the parent
            -- (now red) has sibling wl, and (wk,wv) sits black above with wr
            match wl with
            | nil => zip x (e :: rest)  -- unreachable: red node has real children
            | node nk nv _ nl nr =>
              if getColor nl = black ∧ getColor nr = black then
                -- case (b) on the new sibling: the focus moves up to the
                -- parent, which case (a) just made red, so the next loop
                -- iteration necessarily exits and blackens it; that final
                -- iteration is inlined here
                zip (blacken (node pk pv red x (node nk nv red nl nr)))
                  (.goLeft wk wv black wr :: rest)
              else if getColor nr = black then
                -- case (c) then (d) on the new sibling
                match nl with
                | nil => zip x (e :: rest)  -- unreachable
                | node mk mv _ ml mr =>
                  blacken (zip (node mk mv red (node pk pv black x ml) (node nk nv black mr nr))
                    (.goLeft wk wv black wr :: rest))
              else
                -- case (d) on the new sibling
                blacken (zip (node nk nv red (node pk pv black x nl) (blacken nr))
                  (.goLeft wk wv black wr :: rest))
          else
            if getColor wl = black ∧ getColor wr = black then
              -- case (b): redden w, focus moves up
              deleteFixup (node pk pv pc x (node wk wv red wl wr)) rest
            else if getColor wr = black then
              -- case (c) then (d): wl is red
              match wl with
              | nil => zip x (e :: rest)  -- unreachable
              | node mk mv _ ml mr =>
                blacken (zip (node mk mv pc (node pk pv black x ml) (node wk wv black mr wr)) rest)
            else
              -- case (d)
              blacken (zip (node wk wv pc (node pk pv black x wl) (blacken wr)) rest)
      | .goRight pk pv pc psib =>
        -- mirror image: w = parent.left = psib
        match psib with
        | nil => zip x (e :: rest)
        | node wk wv wc wl wr =>
          if wc = red then
            -- mirrored case (a): rotate right at the parent; new sibling wr
            match wr with
            | nil => zip x (e :: rest)
            | node nk nv _ nl nr =>
              if getColor nr = black ∧ getColor nl = black then
                -- mirrored case (b) after (a): inlined final iteration as above
                zip (blacken (node pk pv red (node nk nv red nl nr) x))
                  (.goRight wk wv black wl :: rest)
              else if getColor nl = black then
                match nr with
                | nil => zip x (e :: rest)
                | node mk mv _ ml mr =>
                  blacken (zip (node mk mv red (node nk nv black nl ml) (node pk pv black mr x))
                    (.goRight wk wv black wl :: rest))
              else
                blacken (zip (node nk nv red (blacken nl) (node pk pv black nr x))
                  (.goRight wk wv black wl :: rest))
          else
            if getColor wr = black ∧ getColor wl = black then
              deleteFixup (node pk pv pc (node wk wv red wl wr) x) rest
            else if getColor wl = black then
              match wr with
              | nil => zip x (e :: rest)
              | node mk mv _ ml mr =>
                blacken (zip (node mk mv pc (node wk wv black wl ml) (node pk pv black mr x)) rest)
            else
              blacken (zip (node wk wv pc (blacken wl) (node pk pv black wr x)) rest)

/-- The `minimum` call of `Delete` (rbtree.go:73-78, used at line 237):
descend all-left in a nonempty subtree, accumulating the spine as path
entries.  Returns the minimum node's key, value, color, right child, and the
accumulated path (the minimum's ancestry, innermost first). -/
def splitMin : Int → α → Bool → RBNode α → RBNode α → Ctx α →
    Int × α × Bool × RBNode α × Ctx α
  | k, v, c, nil, r, acc => (k, v, c, r, acc)
  | k, v, c, node lk lv lc ll lr, r, acc =>
    splitMin lk lv lc ll lr (.goLeft k v c r :: acc)

/-- The splice-and-fixup part of `Delete` (rbtree.go:219-256) once the node
`z = node zk zv zc zl zr` has been located with ancestry `ctx`:
with at most one child, the child replaces `z` and the removed color is
`zc`; with two children, the in-order successor `y` (minimum of `zr`)
replaces `z`, keeping `z`'s color, and the removed color is `y`'s; the
successor's right child `x` takes `y`'s old slot.  If the removed color is
black, `deleteFixup` runs from `x`'s position; otherwise the tree is just
rebuilt. -/
def deleteNode (_zk : Int) (_zv : α) (zc : Bool) (zl zr : RBNode α) (ctx : Ctx α) : RBNode α :=
  match zl with
  | nil => if zc = black then deleteFixup zr ctx else zip zr ctx
  | node _ _ _ _ _ =>
    match zr with
    | nil => if zc = black then deleteFixup zl ctx else zip zl ctx
    | node rk rv rc rl rr =>
      match splitMin rk rv rc rl rr [] with
      | (yk, yv, yc, yr, acc) =>
        let fullCtx := acc ++ .goRight yk yv zc zl :: ctx
        if yc = black then deleteFixup yr fullCtx else zip yr fullCtx

/-- The search loop of `Delete` (rbtree.go:208-221): BST descent recording
the path; if the key is absent the tree is returned unmodified (the `z ==
nil` early return — rebuilding the untouched path is the identity). -/
def deleteDescend : RBNode α → Int → Ctx α → RBNode α
  | nil, _, ctx => zip nil ctx
  | node k' v' c l r, k, ctx =>
    if k < k' then deleteDescend l k (.goLeft k' v' c r :: ctx)
    else if k' < k then deleteDescend r k (.goRight k' v' c l :: ctx)
    else deleteNode k' v' c l r ctx

/-- `RBTree.Delete` (rbtree.go:208-257). -/
def Delete (t : RBNode α) (k : Int) : RBNode α :=
  deleteDescend t k []

/-- `RBTree.Range` (rbtree.go:507-526) with a pure visitor, recorded as the
list of `(key, value)` pairs passed to the visitor, in call order.  The
recursion mirrors `walk`: recurse left only when `key > start`; visit when
`start ≤ key ≤ end`, and when the visitor returns false the `return`
statement skips only the right-subtree recursion of the current call (the
ancestors' frames continue); recurse right only when `key < end`. -/
def Range (start stop : Int) (fn : Int → α → Bool) : RBNode α → List (Int × α)
  | nil => []
  | node k v _ l r =>
    let leftPart := if k > start then Range start stop fn l else []
    if start ≤ k ∧ k ≤ stop then
      if fn k v then
        leftPart ++ (k, v) :: (if k < stop then Range start stop fn r else [])
      else
        leftPart ++ [(k, v)]
    else
      leftPart ++ (if k < stop then Range start stop fn r else [])

/-- In-order traversal of the tree as a `(key, value)` list. -/
def inorder : RBNode α → List (Int × α)
  | nil => []
  | node k v _ l r => inorder l ++ (k, v) :: inorder r

/-- The keys of the tree in in-order. -/
def keysOf (t : RBNode α) : List Int := (inorder t).map Prod.fst

/-! ### Proof-layer definitions: list models of the tree operations -/

/-- The pairs contributed by the ancestry entries strictly left of the focus. -/
def zipL : Ctx α → List (Int × α)
  | [] => []
  | .goLeft _ _ _ _ :: rest => zipL rest
  | .goRight k v _ l :: rest => zipL rest ++ inorder l ++ [(k, v)]

/-- The pairs contributed by the ancestry entries strictly right of the focus. -/
def zipR : Ctx α → List (Int × α)
  | [] => []
  | .goLeft k v _ r :: rest => ((k, v) :: inorder r) ++ zipR rest
  | .goRight _ _ _ _ :: rest => zipR rest

/-- Insertion into the in-order pair list, following the tree descent's
comparison order: before the first larger key, replacing an equal key. -/
def listInsert (k : Int) (v : α) : List (Int × α) → List (Int × α)
  | [] => [(k, v)]
  | (k', v') :: rest =>
    if k < k' then (k, v) :: (k', v') :: rest
    else if k' < k then (k', v') :: listInsert k v rest
    else (k, v) :: rest

/-- Removal of the first pair with the given key from the pair list. -/
def listErase (k : Int) : List (Int × α) → List (Int × α)
  | [] => []
  | (k', v') :: rest => if k' = k then rest else (k', v') :: listErase k rest

/-- First-match association lookup in the pair list. -/
def listLookup (k : Int) : List (Int × α) → Option α
  | [] => none
  | (k', v') :: rest => if k' = k then some v' else listLookup k rest

/-- Strict ascending order of the keys of a pair list. -/
def pairsSorted (l : List (Int × α)) : Prop := l.Pairwise (fun p q => p.1 < q.1)

/-- Value overwrite at the node holding key `k` (the `x.value = value;
return` arm of the `Insert` descent), expressed as a recursive function. -/
def overwrite (k : Int) (v : α) : RBNode α → RBNode α
  | nil => nil
  | node k' v' c l r =>
    if k < k' then node k' v' c (overwrite k v l) r
    else if k' < k then node k' v' c l (overwrite k v r)
    else node k' v c l r

/-- The tree with values erased: keys, colors and shape only. -/
def skeleton : RBNode α → RBNode Unit
  | nil => nil
  | node k _ c l r => node k () c (skeleton l) (skeleton r)

/-- A two-node tree (black 2 at the root, red 1 as its left child) and a
visitor that stops at key 1. -/
def c3Tree : RBNode Nat := Insert (Insert nil 2 20) 1 10

/-- The stopping visitor for the counterexample: false exactly at key 1. -/
def c3fn : Int → Nat → Bool := fun k _ => decide (k ≠ 1)

end RBNode

/-! ### Balance layer: the red-black invariants as judgments -/

namespace RBNode
variable {α : Type}

/-- The red-black balance judgment: `Balanced t c n` says `t`'s root has
color `c` and every path from `t`'s root to an absent child passes `n`
black nodes; a red node has black children.  (Spec §3 invariants 2-5
restricted to a subtree.) -/
inductive Balanced : RBNode α → Bool → Nat → Prop where
  | nil : Balanced nil black 0
  | red {l r : RBNode α} {n : Nat} (k : Int) (v : α) :
      Balanced l black n → Balanced r black n → Balanced (node k v red l r) red n
  | black {l r : RBNode α} {cl cr : Bool} {n : Nat} (k : Int) (v : α) :
      Balanced l cl n → Balanced r cr n → Balanced (node k v black l r) black (n + 1)

/-- Balance of an ancestry path with a hole: `PathBal ctx c n` says that
filling the hole with any `(c, n)`-balanced subtree yields a balanced tree
whose root is black.  A hole under a red parent must be black; a hole under
a black parent may have either color; the root hole is black (the tree root
is black in every reachable state). -/
inductive PathBal : Ctx α → Bool → Nat → Prop where
  | root (n : Nat) : PathBal [] black n
  | redL {rest : Ctx α} {sib : RBNode α} {n : Nat} (k : Int) (v : α) :
      Balanced sib black n → PathBal rest red n →
      PathBal (.goLeft k v red sib :: rest) black n
  | redR {rest : Ctx α} {sib : RBNode α} {n : Nat} (k : Int) (v : α) :
      Balanced sib black n → PathBal rest red n →
      PathBal (.goRight k v red sib :: rest) black n
  | blackL {rest : Ctx α} {sib : RBNode α} {c1 c2 : Bool} {n : Nat} (k : Int) (v : α) :
      Balanced sib c2 n → PathBal rest black (n + 1) →
      PathBal (.goLeft k v black sib :: rest) c1 n
  | blackR {rest : Ctx α} {sib : RBNode α} {c1 c2 : Bool} {n : Nat} (k : Int) (v : α) :
      Balanced sib c2 n → PathBal rest black (n + 1) →
      PathBal (.goRight k v black sib :: rest) c1 n


/-- CLRS invariant 4 as a predicate on trees: no red node has a red child. -/
def NoRedRed : RBNode α → Prop
  | nil => True
  | node _ _ c l r =>
      (c = red → getColor l = black ∧ getColor r = black) ∧ NoRedRed l ∧ NoRedRed r

/-- CLRS invariant 5 as a computation: `some n` when every path from the
root to an absent child passes exactly `n` black nodes, `none` when two
paths disagree. -/
def blackHeight : RBNode α → Option Nat
  | nil => some 0
  | node _ _ c l r =>
    match blackHeight l, blackHeight r with
    | some a, some b =>
        if a = b then some (a + (if c = black then 1 else 0)) else none
    | _, _ => none

end RBNode


/-! ## The sharded wrapper `ShardedRBTreeOpt` (rbtree.go:392-440, 528-569)

Each shard is one tree guarded by one lock; locks are irrelevant to the
sequential semantics embedded here, so a sharded tree is just the list of
shard trees.  Go's `s.shards[idx]` is modeled with `List.getD`/`List.set`;
the index arithmetic is embedded exactly. -/

/-- A sharded tree: the `shards` slice of rbtree.go:398-401 (each shard's
lock and the shared arena carry no sequential state). -/
structure ShardedRBTreeOpt (α : Type) where
  shards : List (RBNode α)
  deriving Repr

/-- `NewShardedRBTreeOpt` (rbtree.go:403-413) for a positive shard count.
(For `shardsNum <= 0` the Go code derives the count from
`runtime.NumCPU() * 8`, a hardware quantity outside this embedding.) -/
def NewShardedRBTreeOpt (shardsNum : Nat) : ShardedRBTreeOpt α :=
  ⟨List.replicate shardsNum RBNode.nil⟩

namespace ShardedRBTreeOpt

variable {α : Type}

/-- `getShard` (rbtree.go:415-421): `idx := key % len(s.shards)`, then
`idx += len(s.shards)` if negative.  Go's `%` on `int` is the truncated
remainder, `Int.tmod`.  The embedding returns the index; the Go function
returns `s.shards[idx]`. -/
def getShard (s : ShardedRBTreeOpt α) (key : Int) : Nat :=
  let idx := Int.tmod key (s.shards.length : Int)
  let idx := if idx < 0 then idx + (s.shards.length : Int) else idx
  idx.toNat

/-- `ShardedRBTreeOpt.Insert` (rbtree.go:423-428). -/
def Insert (s : ShardedRBTreeOpt α) (key : Int) (v : α) : ShardedRBTreeOpt α :=
  ⟨s.shards.set (s.getShard key) (RBNode.Insert (s.shards.getD (s.getShard key) RBNode.nil) key v)⟩

/-- `ShardedRBTreeOpt.Get` (rbtree.go:429-434). -/
def Get (s : ShardedRBTreeOpt α) (key : Int) : Option α :=
  RBNode.Get (s.shards.getD (s.getShard key) RBNode.nil) key

/-- `ShardedRBTreeOpt.Delete` (rbtree.go:435-440). -/
def Delete (s : ShardedRBTreeOpt α) (key : Int) : ShardedRBTreeOpt α :=
  ⟨s.shards.set (s.getShard key) (RBNode.Delete (s.shards.getD (s.getShard key) RBNode.nil) key)⟩

/-- `ShardedRBTreeOpt.Range` (rbtree.go:563-569): iterate the shards in
slice order, running the underlying `RBTree.Range` on each with the same
visitor.  With a pure visitor the visit sequence is the concatenation of the
per-shard visit sequences, in shard order. -/
def Range (start stop : Int) (fn : Int → α → Bool) (s : ShardedRBTreeOpt α) : List (Int × α) :=
  s.shards.foldl (fun acc sh => acc ++ RBNode.Range start stop fn sh) []

end ShardedRBTreeOpt

/-! ## The persistence manager (persistent.go)

File contents are modeled as values: a WAL file is the stream of results the
decode loop sees (`some record` per successfully decoded record, `none` for
a decode error — a malformed or truncated record, or end of file); a
snapshot file is `Option` of its decoded key/value list (`none` when
`os.Stat` fails, i.e. the file does not exist).  I/O outcomes of the
`bufio`/`gob` write path are the booleans `encodeOk`/`flushOk`. -/

/-- The `Tree` capability interface of persistent.go:10-14. -/
structure TreeOps (τ : Type) (α : Type) where
  insert : τ → Int → α → τ
  get : τ → Int → Option α
  delete : τ → Int → τ

/-- A WAL operation record (persistent.go:17-29): opcode, key, and — for
inserts only — a value, exactly the record layout `walOp{Op, Key, Value}`. -/
inductive WalOp (α : Type) where
  | ins (key : Int) (value : α) : WalOp α
  | del (key : Int) : WalOp α
  deriving DecidableEq, Repr

/-- Apply one replayed WAL record (the `switch op.Op` of
persistent.go:126-131): `opInsert` re-issues `Insert` with the recorded
value, `opDelete` re-issues `Delete`. -/
def applyWalOp {τ α : Type} (ops : TreeOps τ α) (t : τ) : WalOp α → τ
  | .ins k v => ops.insert t k v
  | .del k => ops.delete t k

/-- The WAL replay loop (persistent.go:120-132): decode records one at a
time, applying each; the first decode failure (including end of file)
breaks the loop silently. -/
def replayWAL {τ α : Type} (ops : TreeOps τ α) : τ → List (Option (WalOp α)) → τ
  | t, [] => t
  | t, none :: _ => t
  | t, some r :: rest => replayWAL ops (applyWalOp ops t r) rest

/-- `ImportAll` (persistent.go:193-197): insert every snapshot pair into the
tree.  Go iterates a `map`, so the order is arbitrary; the list fixes one
such order. -/
def ImportAll {τ α : Type} (ops : TreeOps τ α) (t : τ) (data : List (Int × α)) : τ :=
  data.foldl (fun t kv => ops.insert t kv.1 kv.2) t

/-- `LoadFromSnapshotAndWAL` (persistent.go:98-135): if the snapshot exists,
bulk-insert its pairs; then replay the WAL stream. -/
def LoadFromSnapshotAndWAL {τ α : Type} (ops : TreeOps τ α) (t : τ)
    (snapshot : Option (List (Int × α))) (wal : List (Option (WalOp α))) : τ :=
  let t1 := match snapshot with
    | some data => ImportAll ops t data
    | none => t
  replayWAL ops t1 wal

/-- `ExportAll` (persistent.go:156-190) for the `*ShardedRBTreeOpt` case:
for each shard in order, run `Range(-1<<31, 1<<31-1, ...)` collecting every
visited pair.  Go accumulates into a map; for trees built through the API
the shards hold disjoint keys, so the concatenation is the same collection.
Note the scan bounds are the 32-bit extremes `-2147483648` and `2147483647`
while Go `int` keys are 64-bit. -/
def ExportAll (s : ShardedRBTreeOpt α) : List (Int × α) :=
  s.shards.foldl (fun result sh =>
    result ++ RBNode.Range (-2147483648) 2147483647 (fun _ _ => true) sh) []

/-- The manager's in-memory state: the wrapped tree and the durably flushed
WAL records (persistent.go:31-37; the open file handle and the `bufio`
buffer are represented by their flushed contents). -/
structure PMState (τ : Type) (α : Type) where
  tree : τ
  wal : List (WalOp α)

namespace PersistentManager

variable {τ α : Type}

/-- `PersistentManager.Insert` (persistent.go:53-63): apply the mutation to
the wrapped tree first, then gob-encode an `opInsert` record and flush it.
`encodeOk`/`flushOk` say whether those two I/O steps succeed; the returned
`Bool` is `true` exactly when the call returns a nil error.  On failure the
record is not durably appended but the tree mutation stays. -/
def Insert (ops : TreeOps τ α) (encodeOk flushOk : Bool) (st : PMState τ α)
    (k : Int) (v : α) : PMState τ α × Bool :=
  let t := ops.insert st.tree k v
  if encodeOk then
    if flushOk then (⟨t, st.wal ++ [WalOp.ins k v]⟩, true)
    else (⟨t, st.wal⟩, false)
  else (⟨t, st.wal⟩, false)

/-- `PersistentManager.Delete` (persistent.go:66-76), mirroring `Insert`
with an `opDelete` record. -/
def Delete (ops : TreeOps τ α) (encodeOk flushOk : Bool) (st : PMState τ α)
    (k : Int) : PMState τ α × Bool :=
  let t := ops.delete st.tree k
  if encodeOk then
    if flushOk then (⟨t, st.wal ++ [WalOp.del k]⟩, true)
    else (⟨t, st.wal⟩, false)
  else (⟨t, st.wal⟩, false)

end PersistentManager

/-- `TreeOps` view of a plain `RBTree` (its `Insert`/`Get`/`Delete`). -/
def rbNodeOps (α : Type) : TreeOps (RBNode α) α :=
  ⟨RBNode.Insert, RBNode.Get, RBNode.Delete⟩

/-- `TreeOps` view of `ShardedRBTreeOpt`, the wrapper used by the
persistence tests. -/
def shardedOps (α : Type) : TreeOps (ShardedRBTreeOpt α) α :=
  ⟨ShardedRBTreeOpt.Insert, ShardedRBTreeOpt.Get, ShardedRBTreeOpt.Delete⟩

/-- A two-shard tree holding keys 0..3 (value = 10·key): keys 0 and 2 land
in shard 0, keys 1 and 3 in shard 1. -/
def c1Tree : ShardedRBTreeOpt Nat :=
  ShardedRBTreeOpt.Insert
    (ShardedRBTreeOpt.Insert
      (ShardedRBTreeOpt.Insert
        (ShardedRBTreeOpt.Insert (NewShardedRBTreeOpt 2) 0 0) 1 10) 2 20) 3 30

/-- A one-shard tree holding the single key `2^31 = 2147483648` (a valid
64-bit Go `int` key) with value 42. -/
def c6Tree : ShardedRBTreeOpt Nat :=
  ShardedRBTreeOpt.Insert (NewShardedRBTreeOpt 1) 2147483648 42



/-- A state reachable from the empty tree: the fold of a finite sequence of
`Insert`/`Delete` calls (as `WalOp`s) over the plain `RBNode` operations. -/
def runOps {α : Type} (ops : List (WalOp α)) : RBNode α :=
  ops.foldl (applyWalOp (rbNodeOps α)) RBNode.nil


/-! ## Shard routing (claim C10) -/

/-- Truncated remainder by a positive modulus is greater than its negation
(companion bound to `Int.tmod_lt_of_pos`). -/
theorem neg_lt_tmod (k : Int) (N : Nat) (h : 0 < N) : -(N : Int) < Int.tmod k N := by
  cases k with
  | ofNat m =>
    have h0 : (0 : Int) ≤ Int.tmod (Int.ofNat m) N := Int.tmod_nonneg _ (Int.ofNat_nonneg m)
    omega
  | negSucc m =>
    show -(N : Int) < -(Int.ofNat ((m + 1) % N))
    have h2 := Nat.mod_lt (m + 1) h
    simp only [Int.ofNat_eq_coe]
    omega

/-- C10: for every sharded tree with at least one shard and every integer
key — negative keys included — `getShard` yields an index in
`[0, shards-1]`, so the `s.shards[idx]` access never goes out of bounds;
and `Insert`, `Get` and `Delete` on the same key all address the shard at
that same index. -/
theorem getShard_safe_and_consistent (s : ShardedRBTreeOpt α) (k : Int) (v : α)
    (h : 0 < s.shards.length) :
    s.getShard k < s.shards.length ∧
    (ShardedRBTreeOpt.Insert s k v).shards =
      s.shards.set (s.getShard k) (RBNode.Insert (s.shards.getD (s.getShard k) RBNode.nil) k v) ∧
    ShardedRBTreeOpt.Get s k = RBNode.Get (s.shards.getD (s.getShard k) RBNode.nil) k ∧
    (ShardedRBTreeOpt.Delete s k).shards =
      s.shards.set (s.getShard k) (RBNode.Delete (s.shards.getD (s.getShard k) RBNode.nil) k) := by
  refine ⟨?_, rfl, rfl, rfl⟩
  unfold ShardedRBTreeOpt.getShard
  have h1 := Int.tmod_lt_of_pos k (b := (s.shards.length : Int)) (by exact_mod_cast h)
  have h2 := neg_lt_tmod k s.shards.length h
  simp only []
  split <;> omega

/-- Witness for `getShard_safe_and_consistent` at a concrete sharded tree
and a negative key. -/
theorem getShard_safe_and_consistent_witness :
    0 < (NewShardedRBTreeOpt 2 : ShardedRBTreeOpt Nat).shards.length ∧
    ((NewShardedRBTreeOpt 2 : ShardedRBTreeOpt Nat).getShard (-5) <
      (NewShardedRBTreeOpt 2 : ShardedRBTreeOpt Nat).shards.length ∧
    (ShardedRBTreeOpt.Insert (NewShardedRBTreeOpt 2 : ShardedRBTreeOpt Nat) (-5) 7).shards =
      (NewShardedRBTreeOpt 2 : ShardedRBTreeOpt Nat).shards.set
        ((NewShardedRBTreeOpt 2 : ShardedRBTreeOpt Nat).getShard (-5))
        (RBNode.Insert ((NewShardedRBTreeOpt 2 : ShardedRBTreeOpt Nat).shards.getD
          ((NewShardedRBTreeOpt 2 : ShardedRBTreeOpt Nat).getShard (-5)) RBNode.nil) (-5) 7) ∧
    ShardedRBTreeOpt.Get (NewShardedRBTreeOpt 2 : ShardedRBTreeOpt Nat) (-5) =
      RBNode.Get ((NewShardedRBTreeOpt 2 : ShardedRBTreeOpt Nat).shards.getD
        ((NewShardedRBTreeOpt 2 : ShardedRBTreeOpt Nat).getShard (-5)) RBNode.nil) (-5) ∧
    (ShardedRBTreeOpt.Delete (NewShardedRBTreeOpt 2 : ShardedRBTreeOpt Nat) (-5)).shards =
      (NewShardedRBTreeOpt 2 : ShardedRBTreeOpt Nat).shards.set
        ((NewShardedRBTreeOpt 2 : ShardedRBTreeOpt Nat).getShard (-5))
        (RBNode.Delete ((NewShardedRBTreeOpt 2 : ShardedRBTreeOpt Nat).shards.getD
          ((NewShardedRBTreeOpt 2 : ShardedRBTreeOpt Nat).getShard (-5)) RBNode.nil) (-5))) :=
  ⟨by decide, getShard_safe_and_consistent (NewShardedRBTreeOpt 2) (-5) 7 (by decide)⟩

/-! ## Persistence manager write path (claim C5) -/

/-- C5: a manager `Insert`/`Delete` always applies the mutation to the
wrapped tree (the resulting tree is the mutated one no matter how the I/O
goes); on the success path the operation record is appended and flushed to
the WAL, and the call reports success exactly when both the record encode
and the flush succeed — on an I/O failure the caller gets the error and no
record reaches the log, while the in-memory mutation stays applied. -/
theorem pm_mutate_first_error_not_rolled_back {τ α : Type} (ops : TreeOps τ α)
    (encodeOk flushOk : Bool) (st : PMState τ α) (k : Int) (v : α) :
    (PersistentManager.Insert ops encodeOk flushOk st k v).1.tree = ops.insert st.tree k v ∧
    (PersistentManager.Insert ops encodeOk flushOk st k v).1.wal =
      (if encodeOk && flushOk then st.wal ++ [WalOp.ins k v] else st.wal) ∧
    (PersistentManager.Insert ops encodeOk flushOk st k v).2 = (encodeOk && flushOk) ∧
    (PersistentManager.Delete ops encodeOk flushOk st k).1.tree = ops.delete st.tree k ∧
    (PersistentManager.Delete ops encodeOk flushOk st k).1.wal =
      (if encodeOk && flushOk then st.wal ++ [WalOp.del k] else st.wal) ∧
    (PersistentManager.Delete ops encodeOk flushOk st k).2 = (encodeOk && flushOk) := by
  unfold PersistentManager.Insert PersistentManager.Delete
  cases encodeOk <;> cases flushOk <;> simp

/-! ## Recovery replay (claim C4) -/

/-- Replaying a stream of successfully decoded records folds them over the
tree in file order. -/
theorem replayWAL_somes {τ α : Type} (ops : TreeOps τ α) (records : List (WalOp α))
    (tail : List (Option (WalOp α))) :
    ∀ t, replayWAL ops t (records.map some ++ tail) =
      replayWAL ops (records.foldl (applyWalOp ops) t) tail := by
  induction records with
  | nil => intro t; rfl
  | cons r rest ih => intro t; simpa [replayWAL] using ih (applyWalOp ops t r)

/-- Replay stops silently at end of file or at the first malformed record. -/
theorem replayWAL_stops {τ α : Type} (ops : TreeOps τ α) (t : τ)
    (tail : List (Option (WalOp α))) (h : tail = [] ∨ ∃ rest, tail = none :: rest) :
    replayWAL ops t tail = t := by
  rcases h with h | ⟨rest, h⟩ <;> subst h <;> rfl

/-- C4: recovery from a snapshot plus a WAL whose tail is either clean end
of file or a malformed/partial record first bulk-inserts the snapshot
pairs, then applies every complete record in file order exactly as issued,
and silently ignores everything from the malformed record on.  (With an
empty WAL, `LoadFromSnapshotAndWAL ops t snap []` is just the
snapshot-import of `t`.) -/
theorem load_replays_complete_prefix {τ α : Type} (ops : TreeOps τ α) (t : τ)
    (snap : Option (List (Int × α))) (records : List (WalOp α))
    (tail : List (Option (WalOp α))) (h : tail = [] ∨ ∃ rest, tail = none :: rest) :
    LoadFromSnapshotAndWAL ops t snap (records.map some ++ tail) =
      records.foldl (applyWalOp ops) (LoadFromSnapshotAndWAL ops t snap []) := by
  unfold LoadFromSnapshotAndWAL
  rw [replayWAL_somes, replayWAL_stops ops _ tail h]
  rfl

/-- Witness for `load_replays_complete_prefix`: a snapshot of two pairs and
a WAL holding two complete records, then a malformed record followed by a
record that must not be replayed. -/
theorem load_replays_complete_prefix_witness :
    (([none, some (WalOp.ins 9 99)] : List (Option (WalOp Nat))) = [] ∨
      ∃ rest, ([none, some (WalOp.ins 9 99)] : List (Option (WalOp Nat))) = none :: rest) ∧
    LoadFromSnapshotAndWAL (rbNodeOps Nat) RBNode.nil (some [(1, 10), (2, 20)])
        (([WalOp.ins 3 30, WalOp.del 1].map some) ++ [none, some (WalOp.ins 9 99)]) =
      [WalOp.ins 3 30, WalOp.del 1].foldl (applyWalOp (rbNodeOps Nat))
        (LoadFromSnapshotAndWAL (rbNodeOps Nat) RBNode.nil (some [(1, 10), (2, 20)]) []) :=
  ⟨Or.inr ⟨_, rfl⟩,
    load_replays_complete_prefix (rbNodeOps Nat) RBNode.nil (some [(1, 10), (2, 20)])
      [WalOp.ins 3 30, WalOp.del 1] [none, some (WalOp.ins 9 99)] (Or.inr ⟨_, rfl⟩)⟩

/-! ## Sharded Range ordering (claim C1) -/

/-- C1 fails on the code: `ShardedRBTreeOpt.Range` concatenates the
per-shard visit sequences in shard order instead of merging them, so over
the union {0,1,2,3} of the two shards the visitor sees keys 0, 2, 1, 3 —
not the globally ascending 0, 1, 2, 3 required by the claim. -/
theorem shardedRange_is_shard_order_concatenation :
    (ShardedRBTreeOpt.Range 0 3 (fun _ _ => true) c1Tree).map Prod.fst = [0, 2, 1, 3] ∧
    ¬ List.Sorted (· < ·)
        ((ShardedRBTreeOpt.Range 0 3 (fun _ _ => true) c1Tree).map Prod.fst) := by
  constructor
  · decide
  · decide

/-! ## Snapshot export bounds (claim C6) -/

/-- C6 fails on the code: `ExportAll` scans only `[-2^31, 2^31-1]`, so the
key `2^31` — present in the tree — is missing from the export, and
re-importing the export into a fresh tree loses it: the round-tripped tree's
key/value set differs from the original's. -/
theorem exportAll_drops_keys_beyond_int32 :
    ShardedRBTreeOpt.Get c6Tree 2147483648 = some 42 ∧
    ExportAll c6Tree = [] ∧
    ShardedRBTreeOpt.Get
      (ImportAll (shardedOps Nat) (NewShardedRBTreeOpt 1) (ExportAll c6Tree)) 2147483648 = none := by
  refine ⟨by decide, by decide, by decide⟩

/-! ## In-order correctness of the tree operations (claims C3, C7, C8, C9) -/

namespace RBNode

variable {α : Type}

theorem inorder_zip : ∀ (ctx : Ctx α) (t : RBNode α),
    inorder (zip t ctx) = zipL ctx ++ inorder t ++ zipR ctx
  | [], t => by simp [zip, zipL, zipR]
  | .goLeft k v c r :: rest, t => by
    simp [zip, zipL, zipR, inorder_zip rest, inorder]
  | .goRight k v c l :: rest, t => by
    simp [zip, zipL, zipR, inorder_zip rest, inorder]

theorem inorder_blacken (t : RBNode α) : inorder (blacken t) = inorder t := by
  cases t <;> simp [blacken, inorder]

/-- `insertFixup` only rotates and recolors: the in-order pair sequence is
exactly that of the unrepaired tree. -/
theorem insertFixup_inorder : ∀ (z : RBNode α) (ctx : Ctx α),
    inorder (insertFixup z ctx) = inorder (zip z ctx) := by
  intro z ctx
  induction z, ctx using insertFixup.induct
  all_goals try (rename PathE _ => e; cases e)
  all_goals try simp_all [insertFixup, inorder_zip, inorder_blacken, inorder, zipL, zipR,
      PathE.fillBlack, PathE.c]
  all_goals rw [insertFixup.eq_def]
  all_goals simp_all [inorder_zip, inorder_blacken, inorder, zipL, zipR,
      PathE.fillBlack, PathE.c]

/-- `deleteFixup` only rotates and recolors: the in-order pair sequence is
exactly that of the deficient tree in its context. -/
theorem deleteFixup_inorder : ∀ (x : RBNode α) (ctx : Ctx α),
    inorder (deleteFixup x ctx) = inorder (zip x ctx) := by
  intro x ctx
  induction x, ctx using deleteFixup.induct
  all_goals simp_all [deleteFixup, inorder_zip, inorder_blacken, inorder, zipL, zipR]

theorem splitMin_inorder : ∀ (l : RBNode α) (k : Int) (v : α) (c : Bool) (r : RBNode α)
    (acc : Ctx α) (yk : Int) (yv : α) (yc : Bool) (yr : RBNode α) (acc2 : Ctx α),
    splitMin k v c l r acc = (yk, yv, yc, yr, acc2) →
    zipL acc2 = zipL acc ∧
    (yk, yv) :: (inorder yr ++ zipR acc2) = inorder (node k v c l r) ++ zipR acc
  | nil, k, v, c, r, acc, yk, yv, yc, yr, acc2, h => by
    simp only [splitMin, Prod.mk.injEq] at h
    obtain ⟨h1, h2, h3, h4, h5⟩ := h
    subst h1; subst h2; subst h4; subst h5
    exact ⟨rfl, by simp [inorder]⟩
  | node lk lv lc ll lr, k, v, c, r, acc, yk, yv, yc, yr, acc2, h => by
    have ih := splitMin_inorder ll lk lv lc lr (.goLeft k v c r :: acc) yk yv yc yr acc2
      (by simpa [splitMin] using h)
    refine ⟨ih.1.trans (by simp [zipL]), ?_⟩
    rw [ih.2]
    simp [inorder, zipR]

theorem listInsert_append_left (k : Int) (v : α) :
    ∀ (A B : List (Int × α)), (∀ p ∈ A, p.1 < k) →
      listInsert k v (A ++ B) = A ++ listInsert k v B
  | [], B, _ => rfl
  | (a, va) :: A, B, h => by
    have ha : a < k := h (a, va) (by simp)
    have ih := listInsert_append_left k v A B (fun p hp => h p (List.mem_cons_of_mem _ hp))
    simp only [List.cons_append, listInsert, if_neg (by omega : ¬ k < a), if_pos ha,
      List.append_eq, ih]

theorem listInsert_append_right (k : Int) (v : α) :
    ∀ (A B : List (Int × α)), (∀ p ∈ B, k < p.1) →
      listInsert k v (A ++ B) = listInsert k v A ++ B
  | [], [], _ => rfl
  | [], (b, vb) :: B, h => by
    have hb : k < b := h (b, vb) (by simp)
    simp [listInsert, if_pos hb]
  | (a, va) :: A, B, h => by
    have ih := listInsert_append_right k v A B h
    simp only [List.cons_append, listInsert, List.append_eq, ih]
    split
    · rfl
    · split <;> rfl

/-- Decomposition of the in-order sortedness of a node into the usual BST
facts about its root key and subtrees. -/
theorem pairsSorted_node (k : Int) (v : α) (c : Bool) (l r : RBNode α) :
    pairsSorted (inorder (node k v c l r)) ↔
      pairsSorted (inorder l) ∧ pairsSorted (inorder r) ∧
      (∀ p ∈ inorder l, p.1 < k) ∧ (∀ p ∈ inorder r, k < p.1) := by
  simp only [inorder, pairsSorted, List.pairwise_append, List.pairwise_cons]
  constructor
  · rintro ⟨hl, ⟨hrk, hr⟩, hcross⟩
    refine ⟨hl, hr, ?_, hrk⟩
    intro p hp
    exact hcross p hp (k, v) (by simp)
  · rintro ⟨hl, hr, hlk, hrk⟩
    refine ⟨hl, ⟨hrk, hr⟩, ?_⟩
    intro p hp q hq
    rcases List.mem_cons.mp hq with h | h
    · subst h; exact hlk p hp
    · exact lt_trans (hlk p hp) (hrk q h)

theorem insertDescend_inorder (k : Int) (v : α) :
    ∀ (t : RBNode α) (ctx : Ctx α),
      pairsSorted (inorder t) →
      (∀ p ∈ zipL ctx, p.1 < k) → (∀ p ∈ zipR ctx, k < p.1) →
      inorder (insertDescend t k v ctx) = zipL ctx ++ listInsert k v (inorder t) ++ zipR ctx
  | nil, ctx, _, _, _ => by
    simp [insertDescend, insertFixup_inorder, inorder_zip, inorder, listInsert]
  | node k' v' c l r, ctx, hs, hL, hR => by
    rcases (pairsSorted_node k' v' c l r).mp hs with ⟨hsl, hsr, hlk, hrk⟩
    simp only [insertDescend]
    split
    · rename_i hlt
      rw [insertDescend_inorder k v l (.goLeft k' v' c r :: ctx) hsl hL ?later]
      case later =>
        intro p hp
        simp only [zipR, List.mem_append, List.mem_cons] at hp
        rcases hp with (h | h) | h
        · subst h; exact hlt
        · exact lt_trans hlt (hrk p h)
        · exact hR p h
      rw [show inorder (node k' v' c l r) = inorder l ++ ((k', v') :: inorder r) from by
        simp [inorder]]
      rw [listInsert_append_right k v (inorder l) ((k', v') :: inorder r) ?gt]
      case gt =>
        intro p hp
        rcases List.mem_cons.mp hp with h | h
        · subst h; exact hlt
        · exact lt_trans hlt (hrk p h)
      simp [zipL, zipR]
    · split
      · rename_i hgt' hlt'
        rw [insertDescend_inorder k v r (.goRight k' v' c l :: ctx) hsr ?lt hR]
        case lt =>
          intro p hp
          simp only [zipL, List.mem_append, List.mem_cons] at hp
          rcases hp with (h | h) | h
          · exact hL p h
          · exact lt_trans (hlk p h) hlt'
          · simp at h; subst h; exact hlt'
        rw [show inorder (node k' v' c l r) = (inorder l ++ [(k', v')]) ++ inorder r from by
          simp [inorder]]
        rw [listInsert_append_left k v (inorder l ++ [(k', v')]) (inorder r) ?lt2]
        case lt2 =>
          intro p hp
          rcases List.mem_append.mp hp with h | h
          · exact lt_trans (hlk p h) hlt'
          · simp at h; subst h; exact hlt'
        simp [zipL, zipR]
      · rename_i hgt' hlt'
        have hk : k = k' := by omega
        subst hk
        rw [inorder_zip]
        rw [show inorder (node k v' c l r) = inorder l ++ ((k, v') :: inorder r) from by
          simp [inorder]]
        rw [listInsert_append_left k v (inorder l) ((k, v') :: inorder r) hlk]
        simp only [listInsert, if_neg (by omega : ¬ k < k), if_neg (by omega : ¬ k < k)]
        simp [inorder]

/-- C7 precursor: inserting rewrites the in-order pair list by
`listInsert`. -/
theorem Insert_inorder (t : RBNode α) (k : Int) (v : α) (hs : pairsSorted (inorder t)) :
    inorder (Insert t k v) = listInsert k v (inorder t) := by
  have := insertDescend_inorder k v t [] hs (by simp [zipL]) (by simp [zipR])
  simpa [Insert, zipL, zipR] using this

theorem mem_listInsert (k : Int) (v : α) :
    ∀ (l : List (Int × α)) (q : Int × α), q ∈ listInsert k v l → q = (k, v) ∨ q ∈ l
  | [], q, h => by simpa [listInsert] using h
  | (k', v') :: rest, q, h => by
    simp only [listInsert] at h
    split at h
    · rcases List.mem_cons.mp h with h | h
      · exact Or.inl h
      · exact Or.inr h
    · split at h
      · rcases List.mem_cons.mp h with h | h
        · exact Or.inr (by simp [h])
        · rcases mem_listInsert k v rest q h with h | h
          · exact Or.inl h
          · exact Or.inr (List.mem_cons_of_mem _ h)
      · rcases List.mem_cons.mp h with h | h
        · exact Or.inl h
        · exact Or.inr (List.mem_cons_of_mem _ h)

theorem listInsert_pairsSorted (k : Int) (v : α) :
    ∀ (l : List (Int × α)), pairsSorted l → pairsSorted (listInsert k v l)
  | [], _ => by simp [listInsert, pairsSorted]
  | (k', v') :: rest, h => by
    rcases (List.pairwise_cons.mp h) with ⟨hk', hrest⟩
    simp only [listInsert]
    split
    · rename_i hlt
      refine List.pairwise_cons.mpr ⟨?_, h⟩
      intro q hq
      rcases List.mem_cons.mp hq with h1 | h1
      · subst h1; exact hlt
      · exact lt_trans hlt (hk' q h1)
    · split
      · rename_i hgt hlt
        refine List.pairwise_cons.mpr ⟨?_, listInsert_pairsSorted k v rest hrest⟩
        intro q hq
        rcases mem_listInsert k v rest q hq with h1 | h1
        · subst h1; exact hlt
        · exact hk' q h1
      · rename_i hgt hlt
        have hk : k = k' := by omega
        subst hk
        exact List.pairwise_cons.mpr ⟨hk', hrest⟩

theorem listLookup_append (k : Int) :
    ∀ (A B : List (Int × α)), listLookup k (A ++ B) =
      match listLookup k A with
      | some v => some v
      | none => listLookup k B
  | [], B => rfl
  | (k', v') :: A, B => by
    simp only [List.cons_append, listLookup]
    split <;> simp [listLookup_append k A B]

theorem listLookup_eq_none (k : Int) :
    ∀ (l : List (Int × α)), (∀ p ∈ l, p.1 ≠ k) → listLookup k l = none
  | [], _ => rfl
  | (k', v') :: rest, h => by
    have : k' ≠ k := h (k', v') (by simp)
    simp only [listLookup, if_neg this]
    exact listLookup_eq_none k rest (fun p hp => h p (List.mem_cons_of_mem _ hp))

/-- `Get` on a BST-ordered tree is association lookup in its in-order
pair list. -/
theorem Get_eq_listLookup (k : Int) :
    ∀ (t : RBNode α), pairsSorted (inorder t) → Get t k = listLookup k (inorder t)
  | nil, _ => rfl
  | node k' v' c l r, hs => by
    rcases (pairsSorted_node k' v' c l r).mp hs with ⟨hsl, hsr, hlk, hrk⟩
    show Get (node k' v' c l r) k = listLookup k (inorder l ++ (k', v') :: inorder r)
    rw [listLookup_append]
    simp only [Get]
    split
    · rename_i hlt
      have hnone : listLookup k ((k', v') :: inorder r) = none := by
        apply listLookup_eq_none
        intro p hp
        rcases List.mem_cons.mp hp with h | h
        · subst h; omega
        · have := hrk p h; omega
      rw [Get_eq_listLookup k l hsl]
      cases hA : listLookup k (inorder l) <;> simp [hnone, hA]
    · split
      · rename_i hgt hlt
        have hnoneA : listLookup k (inorder l) = none := by
          apply listLookup_eq_none
          intro p hp
          have := hlk p hp; omega
        rw [hnoneA]
        simp only [listLookup, if_neg (by omega : ¬ k' = k)]
        exact Get_eq_listLookup k r hsr
      · rename_i hgt hlt
        have hk : k' = k := by omega
        have hnoneA : listLookup k (inorder l) = none := by
          apply listLookup_eq_none
          intro p hp
          have := hlk p hp; omega
        rw [hnoneA]
        simp [listLookup, hk]

theorem listLookup_listInsert (k : Int) (v : α) :
    ∀ (l : List (Int × α)), listLookup k (listInsert k v l) = some v
  | [] => by simp [listInsert, listLookup]
  | (k', v') :: rest => by
    simp only [listInsert]
    split
    · simp [listLookup]
    · split
      · rename_i hgt hlt
        simp only [listLookup, if_neg (by omega : ¬ k' = k)]
        exact listLookup_listInsert k v rest
      · simp [listLookup]

theorem listErase_append_left (k : Int) :
    ∀ (A B : List (Int × α)), (∀ p ∈ A, p.1 ≠ k) →
      listErase k (A ++ B) = A ++ listErase k B
  | [], B, _ => rfl
  | (a, va) :: A, B, h => by
    have ha : a ≠ k := h (a, va) (by simp)
    simp only [List.cons_append, listErase, if_neg ha, List.append_eq]
    rw [listErase_append_left k A B (fun p hp => h p (List.mem_cons_of_mem _ hp))]

theorem listErase_eq_self (k : Int) :
    ∀ (l : List (Int × α)), (∀ p ∈ l, p.1 ≠ k) → listErase k l = l
  | [], _ => rfl
  | (k', v') :: rest, h => by
    have : k' ≠ k := h (k', v') (by simp)
    simp only [listErase, if_neg this]
    rw [listErase_eq_self k rest (fun p hp => h p (List.mem_cons_of_mem _ hp))]

theorem listErase_append_right (k : Int) :
    ∀ (A B : List (Int × α)), (∀ p ∈ B, p.1 ≠ k) →
      listErase k (A ++ B) = listErase k A ++ B
  | [], B, h => by simp [listErase, listErase_eq_self k B h]
  | (a, va) :: A, B, h => by
    simp only [List.cons_append, listErase, List.append_eq]
    split
    · rfl
    · rw [listErase_append_right k A B h]; rfl

theorem zip_append : ∀ (a b : Ctx α) (t : RBNode α), zip t (a ++ b) = zip (zip t a) b
  | [], b, t => rfl
  | .goLeft k v c r :: a, b, t => by simp [zip, zip_append a b]
  | .goRight k v c l :: a, b, t => by simp [zip, zip_append a b]

theorem deleteDescend_inorder (k : Int) :
    ∀ (t : RBNode α) (ctx : Ctx α),
      pairsSorted (inorder t) →
      (∀ p ∈ zipL ctx, p.1 < k) → (∀ p ∈ zipR ctx, k < p.1) →
      inorder (deleteDescend t k ctx) = zipL ctx ++ listErase k (inorder t) ++ zipR ctx
  | nil, ctx, _, _, _ => by
    simp [deleteDescend, inorder_zip, inorder, listErase]
  | node k' v' c l r, ctx, hs, hL, hR => by
    rcases (pairsSorted_node k' v' c l r).mp hs with ⟨hsl, hsr, hlk, hrk⟩
    simp only [deleteDescend]
    split
    · rename_i hlt
      rw [deleteDescend_inorder k l (.goLeft k' v' c r :: ctx) hsl hL ?later]
      case later =>
        intro p hp
        simp only [zipR, List.mem_append, List.mem_cons] at hp
        rcases hp with (h | h) | h
        · subst h; exact hlt
        · exact lt_trans hlt (hrk p h)
        · exact hR p h
      rw [show inorder (node k' v' c l r) = inorder l ++ ((k', v') :: inorder r) from by
        simp [inorder]]
      rw [listErase_append_right k (inorder l) ((k', v') :: inorder r) ?ne]
      case ne =>
        intro p hp
        rcases List.mem_cons.mp hp with h | h
        · subst h; omega
        · have := hrk p h; omega
      simp [zipL, zipR]
    · split
      · rename_i hgt' hlt'
        rw [deleteDescend_inorder k r (.goRight k' v' c l :: ctx) hsr ?lt hR]
        case lt =>
          intro p hp
          simp only [zipL, List.mem_append, List.mem_cons] at hp
          rcases hp with (h | h) | h
          · exact hL p h
          · exact lt_trans (hlk p h) hlt'
          · simp at h; subst h; exact hlt'
        rw [show inorder (node k' v' c l r) = (inorder l ++ [(k', v')]) ++ inorder r from by
          simp [inorder]]
        rw [listErase_append_left k (inorder l ++ [(k', v')]) (inorder r) ?ne2]
        case ne2 =>
          intro p hp
          rcases List.mem_append.mp hp with h | h
          · have := hlk p h; omega
          · simp at h; subst h; omega
        simp [zipL, zipR]
      · rename_i hgt' hlt'
        have hk : k = k' := by omega
        subst hk
        -- found the node; the splice cases of deleteNode
        show inorder (deleteNode k v' c l r ctx) = _
        have herase : listErase k (inorder (node k v' c l r)) = inorder l ++ inorder r := by
          rw [show inorder (node k v' c l r) = inorder l ++ ((k, v') :: inorder r) from by
            simp [inorder]]
          rw [listErase_append_left k (inorder l) ((k, v') :: inorder r)
            (fun p hp => by have := hlk p hp; omega)]
          simp [listErase]
        rw [herase]
        match l, hlk, hsl with
        | nil, hlk, hsl =>
          simp only [deleteNode]
          split <;> simp [deleteFixup_inorder, inorder_zip, inorder]
        | node lk lv lc ll lr, hlk, hsl =>
          match r, hrk, hsr with
          | nil, hrk, hsr =>
            simp only [deleteNode]
            split <;> simp [deleteFixup_inorder, inorder_zip, inorder]
          | node rk rv rc rl rr, hrk, hsr =>
            simp only [deleteNode]
            rcases hsm : splitMin rk rv rc rl rr [] with ⟨yk, yv, yc, yr, acc⟩
            have hsp := splitMin_inorder rl rk rv rc rr [] yk yv yc yr acc hsm
            simp only [zipL, zipR, List.append_nil] at hsp
            have key : ∀ fullTree : RBNode α,
                inorder fullTree = inorder (zip yr (acc ++ .goRight yk yv c (node lk lv lc ll lr) :: ctx)) →
                inorder fullTree =
                  zipL ctx ++ (inorder (node lk lv lc ll lr) ++ inorder (node rk rv rc rl rr)) ++ zipR ctx := by
              intro fullTree hft
              rw [hft, zip_append, inorder_zip, inorder_zip, hsp.1, ← hsp.2]
              simp [zipL, zipR, inorder]
            split
            · exact key _ (by rw [deleteFixup_inorder])
            · exact key _ rfl

/-- C7/C2 precursor: deleting rewrites the in-order pair list by
`listErase`. -/
theorem Delete_inorder (t : RBNode α) (k : Int) (hs : pairsSorted (inorder t)) :
    inorder (Delete t k) = listErase k (inorder t) := by
  have := deleteDescend_inorder k t [] hs (by simp [zipL]) (by simp [zipR])
  simpa [Delete, zipL, zipR] using this

theorem listErase_sublist (k : Int) :
    ∀ (l : List (Int × α)), (listErase k l).Sublist l
  | [] => List.Sublist.refl []
  | (k', v') :: rest => by
    simp only [listErase]
    split
    · exact List.sublist_cons_self (k', v') rest
    · exact List.Sublist.cons₂ (k', v') (listErase_sublist k rest)

theorem listErase_pairsSorted (k : Int) (l : List (Int × α)) (h : pairsSorted l) :
    pairsSorted (listErase k l) :=
  List.Pairwise.sublist (listErase_sublist k l) h

theorem listLookup_listErase (k : Int) :
    ∀ (l : List (Int × α)), pairsSorted l → listLookup k (listErase k l) = none
  | [], _ => rfl
  | (k', v') :: rest, h => by
    rcases List.pairwise_cons.mp h with ⟨hk', hrest⟩
    simp only [listErase]
    split
    · rename_i he
      subst he
      exact listLookup_eq_none k' rest (fun p hp => by have := hk' p hp; omega)
    · rename_i he
      simp only [listLookup, if_neg he]
      exact listLookup_listErase k rest hrest

/-- Keys-sorted (the claims' phrasing) and pair-sorted (the proofs'
phrasing) agree. -/
theorem pairsSorted_iff_keys (l : List (Int × α)) :
    pairsSorted l ↔ List.Sorted (· < ·) (l.map Prod.fst) := by
  unfold pairsSorted List.Sorted
  rw [List.pairwise_map]

/-- C7: on a BST-ordered tree, `Get k` right after `Insert k v` returns
`(v, true)`, and `Get k` right after `Delete k` returns `(nil, false)`. -/
theorem get_after_insert_and_delete (t : RBNode α) (k : Int) (v : α)
    (hs : List.Sorted (· < ·) (keysOf t)) :
    Get (Insert t k v) k = some v ∧ Get (Delete t k) k = none := by
  have hp : pairsSorted (inorder t) := (pairsSorted_iff_keys _).mpr hs
  constructor
  · rw [Get_eq_listLookup k _ (by
      rw [Insert_inorder t k v hp]
      exact listInsert_pairsSorted k v _ hp)]
    rw [Insert_inorder t k v hp]
    exact listLookup_listInsert k v _
  · rw [Get_eq_listLookup k _ (by
      rw [Delete_inorder t k hp]
      exact listErase_pairsSorted k _ hp)]
    rw [Delete_inorder t k hp]
    exact listLookup_listErase k _ hp

/-- Witness for `get_after_insert_and_delete` on a concrete two-node tree. -/
theorem get_after_insert_and_delete_witness :
    List.Sorted (· < ·) (keysOf (Insert (Insert (nil : RBNode Nat) 1 10) 5 50)) ∧
    (Get (Insert (Insert (Insert (nil : RBNode Nat) 1 10) 5 50) 3 7) 3 = some 7 ∧
      Get (Delete (Insert (Insert (nil : RBNode Nat) 1 10) 5 50) 3) 3 = none) :=
  ⟨by decide, get_after_insert_and_delete (Insert (Insert nil 1 10) 5 50) 3 7 (by decide)⟩

/-- The search loop of `Delete` never finds an absent key, so it rebuilds
the untouched path: the tree is returned as it was. -/
theorem deleteDescend_absent (k : Int) :
    ∀ (t : RBNode α) (ctx : Ctx α), k ∉ keysOf t → deleteDescend t k ctx = zip t ctx
  | nil, ctx, _ => rfl
  | node k' v' c l r, ctx, h => by
    have hmem : k ≠ k' ∧ k ∉ keysOf l ∧ k ∉ keysOf r := by
      refine ⟨?_, ?_, ?_⟩ <;> intro hx <;> apply h <;>
        simp only [keysOf, inorder, List.map_append, List.map_cons, List.mem_append,
          List.mem_cons]
      · exact Or.inr (Or.inl hx)
      · exact Or.inl (by simpa [keysOf] using hx)
      · exact Or.inr (Or.inr (by simpa [keysOf] using hx))
    simp only [deleteDescend]
    split
    · exact deleteDescend_absent k l _ hmem.2.1
    · split
      · exact deleteDescend_absent k r _ hmem.2.2
      · exact absurd (by omega : k = k') hmem.1

/-- C9: `Delete` on an absent key leaves the tree entirely unchanged —
identical structure, colors and values — and (being a total function in the
embedding, mirroring the straight-line Go code) does not panic. -/
theorem delete_absent_is_noop (t : RBNode α) (k : Int) (h : k ∉ keysOf t) :
    Delete t k = t :=
  deleteDescend_absent k t [] h

/-- Witness for `delete_absent_is_noop` on a concrete tree. -/
theorem delete_absent_is_noop_witness :
    ((5 : Int) ∉ keysOf (Insert (Insert (nil : RBNode Nat) 2 20) 9 90)) ∧
    Delete (Insert (Insert (nil : RBNode Nat) 2 20) 9 90) 5 =
      Insert (Insert (nil : RBNode Nat) 2 20) 9 90 :=
  ⟨by decide, delete_absent_is_noop (Insert (Insert nil 2 20) 9 90) 5 (by decide)⟩

theorem insertDescend_found (k : Int) (v : α) :
    ∀ (t : RBNode α) (ctx : Ctx α), pairsSorted (inorder t) → k ∈ keysOf t →
      insertDescend t k v ctx = zip (overwrite k v t) ctx
  | nil, ctx, _, hk => by simp [keysOf, inorder] at hk
  | node k' v' c l r, ctx, hs, hk => by
    rcases (pairsSorted_node k' v' c l r).mp hs with ⟨hsl, hsr, hlk, hrk⟩
    simp only [insertDescend, overwrite]
    split
    · rename_i hlt
      have hkl : k ∈ keysOf l := by
        simp only [keysOf, inorder, List.map_append, List.map_cons, List.mem_append,
          List.mem_cons] at hk
        rcases hk with h | h | h
        · simpa [keysOf] using h
        · omega
        · rcases List.mem_map.mp h with ⟨p, hp, he⟩
          have := hrk p hp; omega
      rw [insertDescend_found k v l _ hsl hkl]
      rfl
    · split
      · rename_i hgt hlt
        have hkr : k ∈ keysOf r := by
          simp only [keysOf, inorder, List.map_append, List.map_cons, List.mem_append,
            List.mem_cons] at hk
          rcases hk with h | h | h
          · rcases List.mem_map.mp h with ⟨p, hp, he⟩
            have := hlk p hp; omega
          · omega
          · simpa [keysOf] using h
        rw [insertDescend_found k v r _ hsr hkr]
        rfl
      · rfl

theorem skeleton_overwrite (k : Int) (v : α) :
    ∀ (t : RBNode α), skeleton (overwrite k v t) = skeleton t
  | nil => rfl
  | node k' v' c l r => by
    simp only [overwrite]
    split
    · simp [skeleton, skeleton_overwrite k v l]
    · split <;> simp [skeleton, skeleton_overwrite k v r, skeleton]

theorem map_id_of_ne (k : Int) (v : α) :
    ∀ (l : List (Int × α)), (∀ p ∈ l, p.1 ≠ k) →
      l.map (fun p => if p.1 = k then (k, v) else p) = l
  | [], _ => rfl
  | (a, va) :: rest, h => by
    have : a ≠ k := h (a, va) (by simp)
    simp only [List.map_cons, if_neg this]
    rw [map_id_of_ne k v rest (fun p hp => h p (List.mem_cons_of_mem _ hp))]

theorem inorder_overwrite (k : Int) (v : α) :
    ∀ (t : RBNode α), pairsSorted (inorder t) →
      inorder (overwrite k v t) = (inorder t).map (fun p => if p.1 = k then (k, v) else p)
  | nil, _ => rfl
  | node k' v' c l r, hs => by
    rcases (pairsSorted_node k' v' c l r).mp hs with ⟨hsl, hsr, hlk, hrk⟩
    simp only [overwrite]
    split
    · rename_i hlt
      simp only [inorder, List.map_append, List.map_cons]
      rw [inorder_overwrite k v l hsl, if_neg (by omega : ¬ k' = k),
        map_id_of_ne k v (inorder r) (fun p hp => by have := hrk p hp; omega)]
    · split
      · rename_i hgt hlt
        simp only [inorder, List.map_append, List.map_cons]
        rw [inorder_overwrite k v r hsr, if_neg (by omega : ¬ k' = k),
          map_id_of_ne k v (inorder l) (fun p hp => by have := hlk p hp; omega)]
      · rename_i hgt hlt
        have hk : k = k' := by omega
        subst hk
        simp only [inorder, List.map_append, List.map_cons, if_pos rfl]
        rw [map_id_of_ne k v (inorder l) (fun p hp => by have := hlk p hp; omega),
          map_id_of_ne k v (inorder r) (fun p hp => by have := hrk p hp; omega)]
        simp

/-- C8: inserting a key that is already present only overwrites that node's
value in place: the skeleton (keys, colors, shape — so no new node, no
rotation, no recoloring) is unchanged, and the in-order pair list changes
only at the entry for that key. -/
theorem insert_existing_overwrites_in_place (t : RBNode α) (k : Int) (v : α)
    (hs : List.Sorted (· < ·) (keysOf t)) (hk : k ∈ keysOf t) :
    skeleton (Insert t k v) = skeleton t ∧
    inorder (Insert t k v) = (inorder t).map (fun p => if p.1 = k then (k, v) else p) := by
  have hp : pairsSorted (inorder t) := (pairsSorted_iff_keys _).mpr hs
  have he : Insert t k v = overwrite k v t := insertDescend_found k v t [] hp hk
  rw [he, skeleton_overwrite, inorder_overwrite k v t hp]
  exact ⟨rfl, rfl⟩

/-- Witness for `insert_existing_overwrites_in_place` on a concrete tree. -/
theorem insert_existing_overwrites_in_place_witness :
    (List.Sorted (· < ·) (keysOf (Insert (Insert (nil : RBNode Nat) 2 20) 7 70)) ∧
      (7 : Int) ∈ keysOf (Insert (Insert (nil : RBNode Nat) 2 20) 7 70)) ∧
    (skeleton (Insert (Insert (Insert (nil : RBNode Nat) 2 20) 7 70) 7 1) =
        skeleton (Insert (Insert (nil : RBNode Nat) 2 20) 7 70) ∧
      inorder (Insert (Insert (Insert (nil : RBNode Nat) 2 20) 7 70) 7 1) =
        (inorder (Insert (Insert (nil : RBNode Nat) 2 20) 7 70)).map
          (fun p => if p.1 = 7 then (7, 1) else p)) :=
  ⟨⟨by decide, by decide⟩,
    insert_existing_overwrites_in_place (Insert (Insert nil 2 20) 7 70) 7 1
      (by decide) (by decide)⟩

theorem Range_true_eq_filter (start stop : Int) :
    ∀ (t : RBNode α), pairsSorted (inorder t) →
      Range start stop (fun _ _ => true) t =
        (inorder t).filter (fun p => decide (start ≤ p.1 ∧ p.1 ≤ stop))
  | nil, _ => rfl
  | node k v c l r, hs => by
    rcases (pairsSorted_node k v c l r).mp hs with ⟨hsl, hsr, hlk, hrk⟩
    have hleft : (if k > start then Range start stop (fun _ _ => true) l else []) =
        (inorder l).filter (fun p => decide (start ≤ p.1 ∧ p.1 ≤ stop)) := by
      split
      · exact Range_true_eq_filter start stop l hsl
      · rename_i hns
        symm
        rw [List.filter_eq_nil_iff]
        intro p hp
        have := hlk p hp
        simp only [decide_eq_true_eq]
        omega
    have hright : (if k < stop then Range start stop (fun _ _ => true) r else []) =
        (inorder r).filter (fun p => decide (start ≤ p.1 ∧ p.1 ≤ stop)) := by
      split
      · exact Range_true_eq_filter start stop r hsr
      · rename_i hns
        symm
        rw [List.filter_eq_nil_iff]
        intro p hp
        have := hrk p hp
        simp only [decide_eq_true_eq]
        omega
    show (let leftPart := if k > start then Range start stop (fun _ _ => true) l else []
      if start ≤ k ∧ k ≤ stop then
        leftPart ++ (k, v) :: (if k < stop then Range start stop (fun _ _ => true) r else [])
      else leftPart ++ (if k < stop then Range start stop (fun _ _ => true) r else [])) = _
    simp only [inorder, List.filter_append, List.filter_cons]
    split
    · rename_i hin
      simp only [hleft, hright, decide_eq_true_eq, if_pos hin]
    · rename_i hout
      simp only [hleft, hright, decide_eq_true_eq, if_neg hout]

theorem Range_sublist_true (start stop : Int) (fn : Int → α → Bool) :
    ∀ (t : RBNode α),
      (Range start stop fn t).Sublist (Range start stop (fun _ _ => true) t)
  | nil => List.Sublist.refl []
  | node k v c l r => by
    have hl : (if k > start then Range start stop fn l else []).Sublist
        (if k > start then Range start stop (fun _ _ => true) l else []) := by
      split
      · exact Range_sublist_true start stop fn l
      · exact List.Sublist.refl []
    have hr : (if k < stop then Range start stop fn r else []).Sublist
        (if k < stop then Range start stop (fun _ _ => true) r else []) := by
      split
      · exact Range_sublist_true start stop fn r
      · exact List.Sublist.refl []
    show (let leftPart := if k > start then Range start stop fn l else []
      if start ≤ k ∧ k ≤ stop then
        if fn k v then
          leftPart ++ (k, v) :: (if k < stop then Range start stop fn r else [])
        else leftPart ++ [(k, v)]
      else leftPart ++ (if k < stop then Range start stop fn r else [])).Sublist
      (let leftPart := if k > start then Range start stop (fun _ _ => true) l else []
      if start ≤ k ∧ k ≤ stop then
        leftPart ++ (k, v) :: (if k < stop then Range start stop (fun _ _ => true) r else [])
      else leftPart ++ (if k < stop then Range start stop (fun _ _ => true) r else []))
    simp only []
    split
    · split
      · exact List.Sublist.append hl (List.Sublist.cons₂ (k, v) hr)
      · exact List.Sublist.append hl (List.Sublist.cons₂ (k, v) (List.nil_sublist _))
    · exact List.Sublist.append hl hr

/-- C3 (amended): on a BST-ordered tree, `Range(start, end, visitor)`
visits keys in strictly ascending order, every visited key lies in the
closed interval, a visitor that never stops sees exactly the in-range
entries of the in-order traversal, and an arbitrary visitor sees a
subsequence of those (a stop prunes the stopping node's right subtree but
does not halt the traversal). -/
theorem Range_visits_in_range_ascending (start stop : Int) (fn : Int → α → Bool)
    (t : RBNode α) (hs : List.Sorted (· < ·) (keysOf t)) :
    List.Sorted (· < ·) ((Range start stop fn t).map Prod.fst) ∧
    (∀ p ∈ Range start stop fn t, start ≤ p.1 ∧ p.1 ≤ stop) ∧
    Range start stop (fun _ _ => true) t =
      (inorder t).filter (fun p => decide (start ≤ p.1 ∧ p.1 ≤ stop)) ∧
    (Range start stop fn t).Sublist (Range start stop (fun _ _ => true) t) := by
  have hp : pairsSorted (inorder t) := (pairsSorted_iff_keys _).mpr hs
  have hfil := Range_true_eq_filter start stop t hp
  have hsub := Range_sublist_true start stop fn t
  have hchain : (Range start stop fn t).Sublist (inorder t) := by
    refine hsub.trans ?_
    rw [hfil]
    exact List.filter_sublist _
  refine ⟨?_, ?_, hfil, hsub⟩
  · have : pairsSorted (Range start stop fn t) := List.Pairwise.sublist hchain hp
    exact (pairsSorted_iff_keys _).mp this
  · intro p hpmem
    have : p ∈ Range start stop (fun _ _ => true) t := hsub.mem hpmem
    rw [hfil] at this
    have := (List.mem_filter.mp this).2
    simpa using this

/-- Witness for `Range_visits_in_range_ascending` at a concrete tree,
interval and visitor. -/
theorem Range_visits_in_range_ascending_witness :
    List.Sorted (· < ·) (keysOf (Insert (Insert (Insert (nil : RBNode Nat) 2 20) 1 10) 3 30)) ∧
    (List.Sorted (· < ·)
        ((Range 1 2 (fun k _ => decide (k ≠ 1))
          (Insert (Insert (Insert (nil : RBNode Nat) 2 20) 1 10) 3 30)).map Prod.fst) ∧
      (∀ p ∈ Range 1 2 (fun k _ => decide (k ≠ 1))
          (Insert (Insert (Insert (nil : RBNode Nat) 2 20) 1 10) 3 30),
        1 ≤ p.1 ∧ p.1 ≤ 2) ∧
      Range 1 2 (fun _ _ => true)
          (Insert (Insert (Insert (nil : RBNode Nat) 2 20) 1 10) 3 30) =
        (inorder (Insert (Insert (Insert (nil : RBNode Nat) 2 20) 1 10) 3 30)).filter
          (fun p => decide (1 ≤ p.1 ∧ p.1 ≤ 2)) ∧
      (Range 1 2 (fun k _ => decide (k ≠ 1))
          (Insert (Insert (Insert (nil : RBNode Nat) 2 20) 1 10) 3 30)).Sublist
        (Range 1 2 (fun _ _ => true)
          (Insert (Insert (Insert (nil : RBNode Nat) 2 20) 1 10) 3 30))) :=
  ⟨by decide,
    Range_visits_in_range_ascending 1 2 (fun k _ => decide (k ≠ 1))
      (Insert (Insert (Insert nil 2 20) 1 10) 3 30) (by decide)⟩

/-- C3's early-termination clause fails on the code: after the visitor
returns false at key 1 (which is not the last visit), the traversal still
visits key 2 — the `return` in `walk` only abandons the current frame, so
ancestors keep visiting.  The claim would require every non-final visit to
have returned true. -/
theorem range_does_not_halt_on_false :
    Range 1 3 c3fn c3Tree = [(1, 10), (2, 20)] ∧ c3fn 1 10 = false ∧
    ¬ (∀ p ∈ (Range 1 3 c3fn c3Tree).dropLast, c3fn p.1 p.2 = true) := by
  refine ⟨by decide, by decide, by decide⟩

end RBNode

end RBTreeGo


/-! ## Balance preservation and the reachability invariant (claim C2) -/

namespace RBTreeGo.RBNode
variable {α : Type}

theorem Balanced.colorEq {t : RBNode α} {c : Bool} {n : Nat} (h : Balanced t c n) :
    getColor t = c := by
  cases h <;> rfl

theorem balanced_nil_inv {c : Bool} {n : Nat} (h : Balanced (nil : RBNode α) c n) :
    c = black ∧ n = 0 := by
  cases h; exact ⟨rfl, rfl⟩

/-- Filling a balanced hole with a matching balanced subtree gives a
black-rooted balanced tree. -/
theorem PathBal.fill : ∀ {ctx : Ctx α} {c : Bool} {n : Nat},
    PathBal ctx c n → ∀ {t : RBNode α}, Balanced t c n →
    ∃ m, Balanced (zip t ctx) black m := by
  intro ctx c n hp
  induction hp with
  | root n => exact fun ht => ⟨_, ht⟩
  | redL k v hsib hrest ih => exact fun ht => ih (Balanced.red k v ht hsib)
  | redR k v hsib hrest ih => exact fun ht => ih (Balanced.red k v hsib ht)
  | blackL k v hsib hrest ih => exact fun ht => ih (Balanced.black k v ht hsib)
  | blackR k v hsib hrest ih => exact fun ht => ih (Balanced.black k v hsib ht)

/-- A red hole sits under a black parent, so it can be viewed at any
color. -/
theorem PathBal.ofRed {ctx : Ctx α} {n : Nat} (h : PathBal ctx red n) (c : Bool) :
    PathBal ctx c n := by
  cases h with
  | blackL k v hsib hrest => exact PathBal.blackL k v hsib hrest
  | blackR k v hsib hrest => exact PathBal.blackR k v hsib hrest

/-- A black hole is the root, or sits under a black parent (so it can be
recolored), or sits under a red parent (the head entry is red, its sibling
black, and the path above expects a red node). -/
theorem PathBal.blackCases {ctx : Ctx α} {n : Nat} (h : PathBal ctx black n) :
    ctx = [] ∨ PathBal ctx red n ∨
    (∃ k v sib rest, (ctx = .goLeft k v red sib :: rest ∨ ctx = .goRight k v red sib :: rest) ∧
      Balanced sib black n ∧ PathBal rest red n) := by
  cases h with
  | root => exact Or.inl rfl
  | redL k v hsib hrest => exact Or.inr (Or.inr ⟨k, _, _, _, Or.inl rfl, hsib, hrest⟩)
  | redR k v hsib hrest => exact Or.inr (Or.inr ⟨k, _, _, _, Or.inr rfl, hsib, hrest⟩)
  | blackL k v hsib hrest => exact Or.inr (Or.inl (PathBal.blackL k v hsib hrest))
  | blackR k v hsib hrest => exact Or.inr (Or.inl (PathBal.blackR k v hsib hrest))

theorem balanced_blacken_red {t : RBNode α} {n : Nat} (h : Balanced t red n) :
    Balanced (blacken t) black (n + 1) := by
  cases h with
  | red k v hl hr => exact Balanced.black k v hl hr

theorem balanced_blacken_black {t : RBNode α} {n : Nat} (h : Balanced t black n) :
    blacken t = t := by
  cases h <;> rfl

/-- `blacken` after a balanced tree of either color. -/
theorem balanced_blacken {t : RBNode α} {c : Bool} {n : Nat} (h : Balanced t c n) :
    ∃ m, Balanced (blacken t) black m := by
  cases c with
  | true => exact ⟨n + 1, balanced_blacken_red h⟩
  | false => exact ⟨n, by rw [balanced_blacken_black h]; exact h⟩


/-- Transport a balance fact along a root-color computation. -/
theorem Balanced.ofGetColor {t : RBNode α} {c c' : Bool} {n : Nat}
    (h : Balanced t c n) (hc : getColor t = c') : Balanced t c' n := by
  have h1 := h.colorEq
  rw [hc] at h1
  rw [h1]
  exact h

theorem getColor_black_of_not_red {t : RBNode α} (h : ¬ getColor t = red) :
    getColor t = black := by
  cases hc : getColor t
  · rfl
  · exact absurd hc h

/-- The loop invariant of `insertFixup`, proved through its recursion: the
focus is a red `n`-balanced subtree and the path is balanced around a
`(red, n)` hole, except that the focus may be at the root, or its parent may
itself be red (the one violation insertion creates), in which case the
grandparent path expects a red node. -/
theorem insertFixup_balanced (z : RBNode α) (ctx : Ctx α) :
    ∀ (n : Nat), Balanced z red n →
    (ctx = [] ∨ PathBal ctx red n ∨
      (∃ k v sib rest,
        (ctx = .goLeft k v red sib :: rest ∨ ctx = .goRight k v red sib :: rest) ∧
        Balanced sib black n ∧ PathBal rest red n)) →
    ∃ m, Balanced (insertFixup z ctx) black m := by
  induction z, ctx using insertFixup.induct with
  | case1 z =>
    intro n hz _
    exact ⟨n + 1, balanced_blacken_red hz⟩
  | case2 z e hec =>
    intro n hz cond
    rcases cond with h | h | ⟨k', v', sib, rest, heq, hsib, hrest⟩
    · exact absurd h (by simp)
    · cases h <;> simp [PathE.c] at hec
    · rcases heq with h | h <;> (injection h with h1 h2; subst h1; subst h2) <;> cases hrest
  | case3 z e hec rest' gk gv gc gsib hred ih =>
    intro n hz cond
    rcases cond with h | h | ⟨k', v', sib, rest, heq, hsib, hrest⟩
    · exact absurd h (by simp)
    · cases h <;> simp [PathE.c] at hec
    · rcases heq with h | h
      · injection h with h1 h2; subst h1; subst h2
        cases hrest
        rename_i hgsib hrest2
        have hgr := hgsib.ofGetColor hred
        rw [insertFixup.eq_def]
        simp only [PathE.c, hred, PathE.fillBlack, if_pos]
        refine ih _ (Balanced.red gk gv (Balanced.black k' v' hz hsib)
          (balanced_blacken_red hgr)) ?_
        rcases (PathBal.blackCases hrest2) with h | h | h
        · exact Or.inl h
        · exact Or.inr (Or.inl h)
        · exact Or.inr (Or.inr h)
      · injection h with h1 h2; subst h1; subst h2
        cases hrest
        rename_i hgsib hrest2
        have hgr := hgsib.ofGetColor hred
        rw [insertFixup.eq_def]
        simp only [PathE.c, hred, PathE.fillBlack, if_pos]
        refine ih _ (Balanced.red gk gv (Balanced.black k' v' hsib hz)
          (balanced_blacken_red hgr)) ?_
        rcases (PathBal.blackCases hrest2) with h | h | h
        · exact Or.inl h
        · exact Or.inr (Or.inl h)
        · exact Or.inr (Or.inr h)
  | case4 z rest' gk gv gc gsib hnred pk pv pc psib hec =>
    intro n hz cond
    rcases cond with h | h | ⟨k', v', sib, rest, heq, hsib, hrest⟩
    · exact absurd h (by simp)
    · cases h <;> simp [PathE.c] at hec
    · rcases heq with h | h
      · injection h with h1 h2
        injection h1 with a b c d
        subst a; subst b; subst c; subst d; subst h2
        cases hrest
        rename_i hgsib hrest2
        have hgb := hgsib.ofGetColor (getColor_black_of_not_red hnred)
        rw [insertFixup.eq_def]
        simp only [PathE.c, hnred, PathE.fillBlack, if_pos, if_neg, reduceIte]
        obtain ⟨m, hm⟩ := hrest2.fill
          (Balanced.black pk pv hz (Balanced.red gk gv hsib hgb))
        exact ⟨m, by rw [balanced_blacken_black hm]; exact hm⟩
      · injection h with h1 h2; injection h1
  | case5 rest' gk gv gc gsib hnred pk pv pc psib hec =>
    intro n hz cond
    cases hz
  | case6 rest' gk gv gc gsib hnred pk pv pc psib zk zv zc zl zr hec =>
    intro n hz cond
    rcases cond with h | h | ⟨k', v', sib, rest, heq, hsib, hrest⟩
    · exact absurd h (by simp)
    · cases h <;> simp [PathE.c] at hec
    · rcases heq with h | h
      · injection h with h1 h2; injection h1
      · injection h with h1 h2
        injection h1 with a b c d
        subst a; subst b; subst c; subst d; subst h2
        cases hrest
        rename_i hgsib hrest2
        have hgb := hgsib.ofGetColor (getColor_black_of_not_red hnred)
        cases hz with
        | red _ _ hzl hzr =>
          rw [insertFixup.eq_def]
          simp only [PathE.c, hnred, PathE.fillBlack, if_pos, if_neg, reduceIte]
          obtain ⟨m, hm⟩ := hrest2.fill
            (Balanced.black zk zv (Balanced.red pk pv hsib hzl)
              (Balanced.red gk gv hzr hgb))
          exact ⟨m, by rw [balanced_blacken_black hm]; exact hm⟩
  | case7 z e hec rest' gk gv gc gsib hred ih =>
    intro n hz cond
    rcases cond with h | h | ⟨k', v', sib, rest, heq, hsib, hrest⟩
    · exact absurd h (by simp)
    · cases h <;> simp [PathE.c] at hec
    · rcases heq with h | h
      · injection h with h1 h2; subst h1; subst h2
        cases hrest
        rename_i hgsib hrest2
        have hgr := hgsib.ofGetColor hred
        rw [insertFixup.eq_def]
        simp only [PathE.c, hred, PathE.fillBlack, if_pos]
        refine ih _ (Balanced.red gk gv (balanced_blacken_red hgr)
          (Balanced.black k' v' hz hsib)) ?_
        rcases (PathBal.blackCases hrest2) with h | h | h
        · exact Or.inl h
        · exact Or.inr (Or.inl h)
        · exact Or.inr (Or.inr h)
      · injection h with h1 h2; subst h1; subst h2
        cases hrest
        rename_i hgsib hrest2
        have hgr := hgsib.ofGetColor hred
        rw [insertFixup.eq_def]
        simp only [PathE.c, hred, PathE.fillBlack, if_pos]
        refine ih _ (Balanced.red gk gv (balanced_blacken_red hgr)
          (Balanced.black k' v' hsib hz)) ?_
        rcases (PathBal.blackCases hrest2) with h | h | h
        · exact Or.inl h
        · exact Or.inr (Or.inl h)
        · exact Or.inr (Or.inr h)
  | case8 z rest' gk gv gc gsib hnred pk pv pc psib hec =>
    intro n hz cond
    rcases cond with h | h | ⟨k', v', sib, rest, heq, hsib, hrest⟩
    · exact absurd h (by simp)
    · cases h <;> simp [PathE.c] at hec
    · rcases heq with h | h
      · injection h with h1 h2; injection h1
      · injection h with h1 h2
        injection h1 with a b c d
        subst a; subst b; subst c; subst d; subst h2
        cases hrest
        rename_i hgsib hrest2
        have hgb := hgsib.ofGetColor (getColor_black_of_not_red hnred)
        rw [insertFixup.eq_def]
        simp only [PathE.c, hnred, PathE.fillBlack, if_pos, if_neg, reduceIte]
        obtain ⟨m, hm⟩ := hrest2.fill
          (Balanced.black pk pv (Balanced.red gk gv hgb hsib) hz)
        exact ⟨m, by rw [balanced_blacken_black hm]; exact hm⟩
  | case9 rest' gk gv gc gsib hnred pk pv pc psib hec =>
    intro n hz cond
    cases hz
  | case10 rest' gk gv gc gsib hnred pk pv pc psib zk zv zc zl zr hec =>
    intro n hz cond
    rcases cond with h | h | ⟨k', v', sib, rest, heq, hsib, hrest⟩
    · exact absurd h (by simp)
    · cases h <;> simp [PathE.c] at hec
    · rcases heq with h | h
      · injection h with h1 h2
        injection h1 with a b c d
        subst a; subst b; subst c; subst d; subst h2
        cases hrest
        rename_i hgsib hrest2
        have hgb := hgsib.ofGetColor (getColor_black_of_not_red hnred)
        cases hz with
        | red _ _ hzl hzr =>
          rw [insertFixup.eq_def]
          simp only [PathE.c, hnred, PathE.fillBlack, if_pos, if_neg, reduceIte]
          obtain ⟨m, hm⟩ := hrest2.fill
            (Balanced.black zk zv (Balanced.red gk gv hgb hzl)
              (Balanced.red pk pv hzr hsib))
          exact ⟨m, by rw [balanced_blacken_black hm]; exact hm⟩
      · injection h with h1 h2; injection h1
  | case11 z e rest hec =>
    intro n hz cond
    rcases cond with h | h | ⟨k', v', sib, rest2, heq, hsib, hrest⟩
    · exact absurd h (by simp)
    · obtain ⟨m, hm⟩ := h.fill hz
      refine ⟨m, ?_⟩
      rw [insertFixup.eq_def]
      cases e <;> rename_i ek ev ec esib <;> simp only [PathE.c] at hec ⊢ <;>
        simp only [if_neg hec] <;>
        (rw [balanced_blacken_black hm]; exact hm)
    · rcases heq with h | h <;>
        (injection h with h1 h2; subst h1; simp [PathE.c] at hec)

/-- The descent of `Insert` preserves balance: walking into a balanced tree
along a balanced path ends in a balanced insertion. -/
theorem insertDescend_balanced (k : Int) (v : α) :
    ∀ (t : RBNode α) (ctx : Ctx α) (c : Bool) (n : Nat),
      Balanced t c n → PathBal ctx c n →
      ∃ m, Balanced (insertDescend t k v ctx) black m
  | nil, ctx, c, n, ht, hp => by
    obtain ⟨hc, hn⟩ := balanced_nil_inv ht
    subst hc; subst hn
    show ∃ m, Balanced (insertFixup (node k v red nil nil) ctx) black m
    refine insertFixup_balanced _ ctx 0 (Balanced.red k v Balanced.nil Balanced.nil) ?_
    rcases (PathBal.blackCases hp) with h | h | h
    · exact Or.inl h
    · exact Or.inr (Or.inl h)
    · exact Or.inr (Or.inr h)
  | node k' v' c' l r, ctx, c, n, ht, hp => by
    simp only [insertDescend]
    split
    · cases ht with
      | red _ _ hl hr =>
        exact insertDescend_balanced k v l _ _ _ hl (PathBal.redL k' v' hr hp)
      | black _ _ hl hr =>
        exact insertDescend_balanced k v l _ _ _ hl (PathBal.blackL k' v' hr hp)
    · split
      · cases ht with
        | red _ _ hl hr =>
          exact insertDescend_balanced k v r _ _ _ hr (PathBal.redR k' v' hl hp)
        | black _ _ hl hr =>
          exact insertDescend_balanced k v r _ _ _ hr (PathBal.blackR k' v' hl hp)
      · cases ht with
        | red _ _ hl hr =>
          exact hp.fill (Balanced.red k' v hl hr)
        | black _ _ hl hr =>
          exact hp.fill (Balanced.black k' v hl hr)

/-- `Insert` keeps the tree balanced with a black root. -/
theorem Insert_balanced (t : RBNode α) (k : Int) (v : α) {n : Nat}
    (h : Balanced t black n) : ∃ m, Balanced (Insert t k v) black m :=
  insertDescend_balanced k v t [] black n h (PathBal.root n)


/-- A red focus makes `deleteFixup` exit at once, blackening the focus. -/
theorem deleteFixup_of_red {x : RBNode α} (ctx : Ctx α) (h : getColor x = red) :
    deleteFixup x ctx = zip (blacken x) ctx := by
  cases ctx with
  | nil => rfl
  | cons e rest =>
    rw [deleteFixup.eq_def]
    simp [h]

theorem getColor_red_of_not_black {t : RBNode α} (h : ¬ getColor t = black) :
    getColor t = red := by
  cases hc : getColor t
  · exact absurd hc h
  · rfl

theorem getColor_node (k : Int) (v : α) (c : Bool) (l r : RBNode α) :
    getColor (node k v c l r) = c := rfl

/-- The loop invariant of `deleteFixup`, proved through its recursion: the
focus is one black level short of what its hole expects (`n` against
`n + 1`), and the fixup restores a balanced black-rooted tree. -/
theorem deleteFixup_balanced : ∀ (x : RBNode α) (ctx : Ctx α), ∀ (c : Bool) (n : Nat),
    Balanced x c n → PathBal ctx black (n + 1) →
    ∃ m, Balanced (deleteFixup x ctx) black m := by
  intro x₀ ctx₀
  induction x₀, ctx₀ using deleteFixup.induct with
  | case1 x =>
    intro c n hx _
    exact balanced_blacken hx
  | case2 x e rest hxr =>
    intro c n hx hp
    rw [deleteFixup.eq_def]
    simp only [hxr, reduceIte]
    exact hp.fill (balanced_blacken_red (hx.ofGetColor hxr))
  | case3 x rest hxb pk pv pc =>
    intro c n hx hp
    cases hp <;> rename_i hsib hrest <;> cases hsib
  | case4 x rest hxb pk pv pc wk wv wr =>
    intro c n hx hp
    cases hp <;> rename_i hsib hrest
    · cases hsib
    · cases hsib with
      | red _ _ hwl hwr => cases hwl
  | case5 x rest hxb pk pv pc wk wv wr nk nv nc nl nr hbb =>
    intro c n hx hp
    cases hp <;> rename_i hsib hrest
    · cases hsib
    · cases hsib with
      | red _ _ hw1 hwr =>
        cases hw1 with
        | black _ _ hnl hnr =>
          rw [deleteFixup.eq_def]
          simp only [hxb, hbb.1, hbb.2, reduceIte, and_self]
          exact (PathBal.blackL wk wv hwr hrest).fill
            (Balanced.black pk pv hx
              (Balanced.red nk nv (hnl.ofGetColor hbb.1) (hnr.ofGetColor hbb.2)))
  | case6 x rest hxb pk pv pc wk wv wr nk nv nc nr hnrb hcontra =>
    intro c n hx hp
    exact absurd ⟨rfl, hnrb⟩ hcontra
  | case7 x rest hxb pk pv pc wk wv wr nk nv nc nr hnrb mk mv mc ml mr hcon =>
    intro c n hx hp
    have hmcr : mc = red := by
      have h1 : ¬ (getColor (node mk mv mc ml mr) = black) := fun hh => hcon ⟨hh, hnrb⟩
      simpa [getColor] using getColor_red_of_not_black h1
    subst hmcr
    cases hp <;> rename_i hsib hrest
    · cases hsib
    · cases hsib with
      | red _ _ hw1 hwr =>
        cases hw1 with
        | black _ _ hnl hnr =>
          cases hnl with
          | red _ _ hml hmr =>
            rw [deleteFixup.eq_def]
            simp only [hxb, hnrb, getColor_node, red, black, reduceCtorEq, reduceIte,
              and_self, and_true, false_and]
            obtain ⟨m, hm⟩ := (PathBal.blackL wk wv hwr hrest).fill
              (Balanced.red mk mv (Balanced.black pk pv hx hml)
                (Balanced.black nk nv hmr (hnr.ofGetColor hnrb)))
            exact ⟨m, by rw [balanced_blacken_black hm]; exact hm⟩
  | case8 x rest hxb pk pv pc wk wv wr nk nv nc nl nr hnboth hnrnb =>
    intro c n hx hp
    cases hp <;> rename_i hsib hrest
    · cases hsib
    · cases hsib with
      | red _ _ hw1 hwr =>
        cases hw1 with
        | black _ _ hnl hnr =>
          rw [deleteFixup.eq_def]
          simp only [hxb, hnrnb, hnboth, reduceIte, and_false, false_and]
          obtain ⟨m, hm⟩ := (PathBal.blackL wk wv hwr hrest).fill
            (Balanced.red nk nv (Balanced.black pk pv hx hnl)
              (balanced_blacken_red (hnr.ofGetColor (getColor_red_of_not_black hnrnb))))
          exact ⟨m, by rw [balanced_blacken_black hm]; exact hm⟩
  | case9 x rest hxb pk pv pc wk wv wc wl wr hwcnr hbb ih =>
    intro c n hx hp
    have hxblack := hx.ofGetColor (getColor_black_of_not_red hxb)
    rw [deleteFixup.eq_def]
    simp only [hxb, hwcnr, hbb.1, hbb.2, reduceIte, and_self]
    cases hp <;> rename_i hsib hrest
    · -- parent red: the refreshed focus is red, so the next iteration exits
      cases hsib with
      | black _ _ hwl hwr =>
        rw [deleteFixup_of_red rest (by rfl)]
        exact (hrest.ofRed black).fill
          (Balanced.black pk pv hxblack
            (Balanced.red wk wv (hwl.ofGetColor hbb.1) (hwr.ofGetColor hbb.2)))
    · -- parent black: genuine recursion one level up
      cases hsib with
      | red _ _ hwl hwr => exact absurd rfl hwcnr
      | black _ _ hwl hwr =>
        exact ih black (n + 1)
          (Balanced.black pk pv hx
            (Balanced.red wk wv (hwl.ofGetColor hbb.1) (hwr.ofGetColor hbb.2))) hrest
  | case10 x rest hxb pk pv pc wk wv wc wr hwcnr hwrb hcontra =>
    intro c n hx hp
    exact absurd ⟨rfl, hwrb⟩ hcontra
  | case11 x rest hxb pk pv pc wk wv wc wr hwcnr hwrb mk mv mc ml mr hcon =>
    intro c n hx hp
    have hmcr : mc = red := by
      have h1 : ¬ (getColor (node mk mv mc ml mr) = black) := fun hh => hcon ⟨hh, hwrb⟩
      simpa [getColor] using getColor_red_of_not_black h1
    subst hmcr
    rw [deleteFixup.eq_def]
    simp only [hxb, hwcnr, hwrb, getColor_node, red, black, reduceCtorEq, reduceIte,
      and_self, and_true, false_and]
    cases hp <;> rename_i hsib hrest
    · cases hsib with
      | black _ _ hm1 hwr2 =>
        cases hm1 with
        | red _ _ hml hmr =>
          obtain ⟨m, hm⟩ := hrest.fill
            (Balanced.red mk mv (Balanced.black pk pv hx hml)
              (Balanced.black wk wv hmr (hwr2.ofGetColor hwrb)))
          exact ⟨m, by rw [balanced_blacken_black hm]; exact hm⟩
    · cases hsib with
      | red _ _ hm1 hwr2 => exact absurd rfl hwcnr
      | black _ _ hm1 hwr2 =>
        cases hm1 with
        | red _ _ hml hmr =>
          obtain ⟨m, hm⟩ := hrest.fill
            (Balanced.black mk mv (Balanced.black pk pv hx hml)
              (Balanced.black wk wv hmr (hwr2.ofGetColor hwrb)))
          exact ⟨m, by rw [balanced_blacken_black hm]; exact hm⟩
  | case12 x rest hxb pk pv pc wk wv wc wl wr hwcnr hnboth hwrnb =>
    intro c n hx hp
    rw [deleteFixup.eq_def]
    simp only [hxb, hwcnr, hnboth, hwrnb, reduceIte, and_false, false_and]
    cases hp <;> rename_i hsib hrest
    · cases hsib with
      | black _ _ hwl hwr =>
        obtain ⟨m, hm⟩ := hrest.fill
          (Balanced.red wk wv (Balanced.black pk pv hx hwl)
            (balanced_blacken_red (hwr.ofGetColor (getColor_red_of_not_black hwrnb))))
        exact ⟨m, by rw [balanced_blacken_black hm]; exact hm⟩
    · cases hsib with
      | red _ _ hwl hwr => exact absurd rfl hwcnr
      | black _ _ hwl hwr =>
        obtain ⟨m, hm⟩ := hrest.fill
          (Balanced.black wk wv (Balanced.black pk pv hx hwl)
            (balanced_blacken_red (hwr.ofGetColor (getColor_red_of_not_black hwrnb))))
        exact ⟨m, by rw [balanced_blacken_black hm]; exact hm⟩
  | case13 x rest hxb pk pv pc =>
    intro c n hx hp
    cases hp <;> rename_i hsib hrest <;> cases hsib
  | case14 x rest hxb pk pv pc wk wv wl =>
    intro c n hx hp
    cases hp <;> rename_i hsib hrest
    · cases hsib
    · cases hsib with
      | red _ _ hwl hwr => cases hwr
  | case15 x rest hxb pk pv pc wk wv wl nk nv nc nl nr hbb =>
    intro c n hx hp
    cases hp <;> rename_i hsib hrest
    · cases hsib
    · cases hsib with
      | red _ _ hwl hw1 =>
        cases hw1 with
        | black _ _ hnl hnr =>
          rw [deleteFixup.eq_def]
          simp only [hxb, hbb.1, hbb.2, reduceIte, and_self]
          exact (PathBal.blackR wk wv hwl hrest).fill
            (Balanced.black pk pv
              (Balanced.red nk nv (hnl.ofGetColor hbb.2) (hnr.ofGetColor hbb.1)) hx)
  | case16 x rest hxb pk pv pc wk wv wl nk nv nc nl hnlb hcontra =>
    intro c n hx hp
    exact absurd ⟨rfl, hnlb⟩ hcontra
  | case17 x rest hxb pk pv pc wk wv wl nk nv nc nl hnlb mk mv mc ml mr hcon =>
    intro c n hx hp
    have hmcr : mc = red := by
      have h1 : ¬ (getColor (node mk mv mc ml mr) = black) := fun hh => hcon ⟨hh, hnlb⟩
      simpa [getColor] using getColor_red_of_not_black h1
    subst hmcr
    cases hp <;> rename_i hsib hrest
    · cases hsib
    · cases hsib with
      | red _ _ hwl hw1 =>
        cases hw1 with
        | black _ _ hnl2 hnr =>
          cases hnr with
          | red _ _ hml hmr =>
            rw [deleteFixup.eq_def]
            simp only [hxb, hnlb, getColor_node, red, black, reduceCtorEq, reduceIte,
              and_self, and_true, true_and, false_and, and_false]
            obtain ⟨m, hm⟩ := (PathBal.blackR wk wv hwl hrest).fill
              (Balanced.red mk mv
                (Balanced.black nk nv (hnl2.ofGetColor hnlb) hml)
                (Balanced.black pk pv hmr hx))
            exact ⟨m, by rw [balanced_blacken_black hm]; exact hm⟩
  | case18 x rest hxb pk pv pc wk wv wl nk nv nc nl nr hnboth hnlnb =>
    intro c n hx hp
    cases hp <;> rename_i hsib hrest
    · cases hsib
    · cases hsib with
      | red _ _ hwl hw1 =>
        cases hw1 with
        | black _ _ hnl2 hnr =>
          rw [deleteFixup.eq_def]
          simp only [hxb, hnlnb, hnboth, reduceIte, and_false, false_and]
          obtain ⟨m, hm⟩ := (PathBal.blackR wk wv hwl hrest).fill
            (Balanced.red nk nv
              (balanced_blacken_red (hnl2.ofGetColor (getColor_red_of_not_black hnlnb)))
              (Balanced.black pk pv hnr hx))
          exact ⟨m, by rw [balanced_blacken_black hm]; exact hm⟩
  | case19 x rest hxb pk pv pc wk wv wc wl wr hwcnr hbb ih =>
    intro c n hx hp
    have hxblack := hx.ofGetColor (getColor_black_of_not_red hxb)
    rw [deleteFixup.eq_def]
    simp only [hxb, hwcnr, hbb.1, hbb.2, reduceIte, and_self]
    cases hp <;> rename_i hsib hrest
    · cases hsib with
      | black _ _ hwl hwr =>
        rw [deleteFixup_of_red rest (by rfl)]
        exact (hrest.ofRed black).fill
          (Balanced.black pk pv
            (Balanced.red wk wv (hwl.ofGetColor hbb.2) (hwr.ofGetColor hbb.1)) hxblack)
    · cases hsib with
      | red _ _ hwl hwr => exact absurd rfl hwcnr
      | black _ _ hwl hwr =>
        exact ih black (n + 1)
          (Balanced.black pk pv
            (Balanced.red wk wv (hwl.ofGetColor hbb.2) (hwr.ofGetColor hbb.1)) hx) hrest
  | case20 x rest hxb pk pv pc wk wv wc wl hwcnr hwlb hcontra =>
    intro c n hx hp
    exact absurd ⟨rfl, hwlb⟩ hcontra
  | case21 x rest hxb pk pv pc wk wv wc wl hwcnr hwlb mk mv mc ml mr hcon =>
    intro c n hx hp
    have hmcr : mc = red := by
      have h1 : ¬ (getColor (node mk mv mc ml mr) = black) := fun hh => hcon ⟨hh, hwlb⟩
      simpa [getColor] using getColor_red_of_not_black h1
    subst hmcr
    rw [deleteFixup.eq_def]
    simp only [hxb, hwcnr, hwlb, getColor_node, red, black, reduceCtorEq, reduceIte,
      and_self, and_true, true_and, false_and, and_false]
    cases hp <;> rename_i hsib hrest
    · cases hsib with
      | black _ _ hwl2 hm1 =>
        cases hm1 with
        | red _ _ hml hmr =>
          obtain ⟨m, hm⟩ := hrest.fill
            (Balanced.red mk mv
              (Balanced.black wk wv (hwl2.ofGetColor hwlb) hml)
              (Balanced.black pk pv hmr hx))
          exact ⟨m, by rw [balanced_blacken_black hm]; exact hm⟩
    · cases hsib with
      | red _ _ hwl2 hm1 => exact absurd rfl hwcnr
      | black _ _ hwl2 hm1 =>
        cases hm1 with
        | red _ _ hml hmr =>
          obtain ⟨m, hm⟩ := hrest.fill
            (Balanced.black mk mv
              (Balanced.black wk wv (hwl2.ofGetColor hwlb) hml)
              (Balanced.black pk pv hmr hx))
          exact ⟨m, by rw [balanced_blacken_black hm]; exact hm⟩
  | case22 x rest hxb pk pv pc wk wv wc wl wr hwcnr hnboth hwlnb =>
    intro c n hx hp
    rw [deleteFixup.eq_def]
    simp only [hxb, hwcnr, hnboth, hwlnb, reduceIte, and_false, false_and]
    cases hp <;> rename_i hsib hrest
    · cases hsib with
      | black _ _ hwl hwr =>
        obtain ⟨m, hm⟩ := hrest.fill
          (Balanced.red wk wv
            (balanced_blacken_red (hwl.ofGetColor (getColor_red_of_not_black hwlnb)))
            (Balanced.black pk pv hwr hx))
        exact ⟨m, by rw [balanced_blacken_black hm]; exact hm⟩
    · cases hsib with
      | red _ _ hwl hwr => exact absurd rfl hwcnr
      | black _ _ hwl hwr =>
        obtain ⟨m, hm⟩ := hrest.fill
          (Balanced.black wk wv
            (balanced_blacken_red (hwl.ofGetColor (getColor_red_of_not_black hwlnb)))
            (Balanced.black pk pv hwr hx))
        exact ⟨m, by rw [balanced_blacken_black hm]; exact hm⟩


/-- The all-left descent `splitMin` keeps the balance ledger: starting from a
balanced subtree whose hole (`acc` before the fixed suffix `tail`) matches,
the minimum node it splits off has black height 0 (its left child is nil),
its right child is balanced, and the accumulated ancestry is again a
balanced hole — at `red 0` when the minimum was red, at `black 1` when it
was black. -/
theorem splitMin_balanced (tail : Ctx α) :
    ∀ (l : RBNode α) (k : Int) (v : α) (c : Bool) (r : RBNode α) (acc : Ctx α)
      (cT : Bool) (nT : Nat) (yk : Int) (yv : α) (yc : Bool) (yr : RBNode α) (acc2 : Ctx α),
      Balanced (node k v c l r) cT nT → PathBal (acc ++ tail) cT nT →
      splitMin k v c l r acc = (yk, yv, yc, yr, acc2) →
      (yc = red → Balanced yr black 0 ∧ PathBal (acc2 ++ tail) red 0) ∧
      (yc = black → ∃ cy, Balanced yr cy 0 ∧ PathBal (acc2 ++ tail) black 1)
  | nil, k, v, c, r, acc, cT, nT, yk, yv, yc, yr, acc2 => by
    intro h hp hEq
    simp only [splitMin, Prod.mk.injEq] at hEq
    obtain ⟨rfl, rfl, rfl, rfl, rfl⟩ := hEq
    cases h with
    | red _ _ hl hr =>
      cases hl
      exact ⟨fun _ => ⟨hr, hp⟩, fun hcb => absurd hcb (by decide)⟩
    | black _ _ hl hr =>
      cases hl
      exact ⟨fun hcr => absurd hcr (by decide), fun _ => ⟨_, hr, hp⟩⟩
  | node lk lv lc ll lr, k, v, c, r, acc, cT, nT, yk, yv, yc, yr, acc2 => by
    intro h hp hEq
    simp only [splitMin] at hEq
    cases h with
    | red _ _ hl hr =>
      exact splitMin_balanced tail ll lk lv lc lr _ _ _ _ _ _ _ _ hl
        (PathBal.redL k v hr hp) hEq
    | black _ _ hl hr =>
      exact splitMin_balanced tail ll lk lv lc lr _ _ _ _ _ _ _ _ hl
        (PathBal.blackL k v hr hp) hEq

/-- Splicing out a located node keeps the tree balanced: with at most one
child the child (plus a fixup when the removed color was black) refills the
hole; with two children the in-order successor found by `splitMin` does. -/
theorem deleteNode_balanced (zk : Int) (zv : α) (zc : Bool) (zl zr : RBNode α) (ctx : Ctx α)
    (cT : Bool) (nT : Nat) (h : Balanced (node zk zv zc zl zr) cT nT)
    (hp : PathBal ctx cT nT) :
    ∃ m, Balanced (deleteNode zk zv zc zl zr ctx) black m := by
  cases zl with
  | nil =>
    cases h with
    | red _ _ hl hr =>
      cases hl
      exact (hp.ofRed black).fill hr
    | black _ _ hl hr =>
      cases hl
      exact deleteFixup_balanced zr ctx _ 0 hr hp
  | node lk lv lc ll lr =>
    cases zr with
    | nil =>
      cases h with
      | red _ _ hl hr =>
        cases hr
        exact (hp.ofRed black).fill hl
      | black _ _ hl hr =>
        cases hr
        exact deleteFixup_balanced _ ctx _ 0 hl hp
    | node rk rv rc rl rr =>
      rcases hEq : splitMin rk rv rc rl rr [] with ⟨yk, yv, yc, yr, acc2⟩
      rw [deleteNode.eq_def]
      simp only [hEq]
      cases h with
      | red _ _ hl hr =>
        have hsp := splitMin_balanced (PathE.goRight yk yv red (node lk lv lc ll lr) :: ctx)
          rl rk rv rc rr [] _ _ _ _ _ _ _ hr (PathBal.redR yk yv hl hp) hEq
        cases yc with
        | true =>
          obtain ⟨hyr, hpf⟩ := hsp.1 rfl
          exact (hpf.ofRed black).fill hyr
        | false =>
          obtain ⟨cy, hyr, hpf⟩ := hsp.2 rfl
          exact deleteFixup_balanced yr _ cy 0 hyr hpf
      | black _ _ hl hr =>
        have hsp := splitMin_balanced (PathE.goRight yk yv black (node lk lv lc ll lr) :: ctx)
          rl rk rv rc rr [] _ _ _ _ _ _ _ hr (PathBal.blackR yk yv hl hp) hEq
        cases yc with
        | true =>
          obtain ⟨hyr, hpf⟩ := hsp.1 rfl
          exact (hpf.ofRed black).fill hyr
        | false =>
          obtain ⟨cy, hyr, hpf⟩ := hsp.2 rfl
          exact deleteFixup_balanced yr _ cy 0 hyr hpf

/-- The BST descent of `Delete` preserves balance. -/
theorem deleteDescend_balanced (k : Int) :
    ∀ (t : RBNode α) (ctx : Ctx α) (cT : Bool) (nT : Nat),
      Balanced t cT nT → PathBal ctx cT nT →
      ∃ m, Balanced (deleteDescend t k ctx) black m
  | nil, ctx, cT, nT, ht, hp => by
    obtain ⟨hc, hn⟩ := balanced_nil_inv ht
    subst hc; subst hn
    exact hp.fill Balanced.nil
  | node k' v' c' l r, ctx, cT, nT, ht, hp => by
    simp only [deleteDescend]
    split
    · cases ht with
      | red _ _ hl hr => exact deleteDescend_balanced k l _ _ _ hl (PathBal.redL k' v' hr hp)
      | black _ _ hl hr => exact deleteDescend_balanced k l _ _ _ hl (PathBal.blackL k' v' hr hp)
    · split
      · cases ht with
        | red _ _ hl hr => exact deleteDescend_balanced k r _ _ _ hr (PathBal.redR k' v' hl hp)
        | black _ _ hl hr => exact deleteDescend_balanced k r _ _ _ hr (PathBal.blackR k' v' hl hp)
      · exact deleteNode_balanced k' v' c' l r ctx cT nT ht hp

/-- `Delete` keeps the tree balanced with a black root. -/
theorem Delete_balanced (t : RBNode α) (k : Int) {n : Nat} (h : Balanced t black n) :
    ∃ m, Balanced (Delete t k) black m :=
  deleteDescend_balanced k t [] black n h (PathBal.root n)

theorem Balanced.noRedRed {t : RBNode α} {c : Bool} {n : Nat} (h : Balanced t c n) :
    NoRedRed t := by
  induction h with
  | nil => trivial
  | red k v hl hr ihl ihr => exact ⟨fun _ => ⟨hl.colorEq, hr.colorEq⟩, ihl, ihr⟩
  | black k v hl hr ihl ihr => exact ⟨fun hc => absurd hc (by decide), ihl, ihr⟩

theorem Balanced.blackHeightEq {t : RBNode α} {c : Bool} {n : Nat} (h : Balanced t c n) :
    blackHeight t = some n := by
  induction h with
  | nil => rfl
  | red k v hl hr ihl ihr => simp [blackHeight, ihl, ihr]
  | black k v hl hr ihl ihr => simp [blackHeight, ihl, ihr]


end RBTreeGo.RBNode

namespace RBTreeGo

/-- Every reachable state is balanced with a black root and has a sorted
in-order list; proved by folding `Insert_balanced`/`Delete_balanced` and the
in-order characterizations over the operation sequence. -/
theorem runOps_invariant {α : Type} (ops : List (WalOp α)) :
    (∃ n, RBNode.Balanced (runOps ops) black n) ∧
      RBNode.pairsSorted (RBNode.inorder (runOps ops)) := by
  suffices h : ∀ (t : RBNode α),
      (∃ n, RBNode.Balanced t black n) ∧ RBNode.pairsSorted (RBNode.inorder t) →
      (∃ n, RBNode.Balanced (ops.foldl (applyWalOp (rbNodeOps α)) t) black n) ∧
        RBNode.pairsSorted (RBNode.inorder (ops.foldl (applyWalOp (rbNodeOps α)) t)) by
    exact h RBNode.nil ⟨⟨0, RBNode.Balanced.nil⟩, List.Pairwise.nil⟩
  induction ops with
  | nil => exact fun t h => h
  | cons op rest ih =>
    intro t ⟨⟨n, hbal⟩, hsort⟩
    refine ih (applyWalOp (rbNodeOps α) t op) ?_
    cases op with
    | ins k v =>
      refine ⟨RBNode.Insert_balanced t k v hbal, ?_⟩
      show RBNode.pairsSorted (RBNode.inorder (RBNode.Insert t k v))
      rw [RBNode.Insert_inorder t k v hsort]
      exact RBNode.listInsert_pairsSorted k v _ hsort
    | del k =>
      refine ⟨RBNode.Delete_balanced t k hbal, ?_⟩
      show RBNode.pairsSorted (RBNode.inorder (RBNode.Delete t k))
      rw [RBNode.Delete_inorder t k hsort]
      exact RBNode.listErase_pairsSorted k _ hsort

/-- C2: for every tree state reachable from the empty tree by a finite
sequence of `Insert` and `Delete` operations, the red-black invariants
hold — the root is black (`nil` reads as black, as in Go), no red node has
a red child, every root-to-absent-child path passes the same number of
black nodes, and the in-order key sequence is strictly ascending. -/
theorem reachable_satisfies_rb_invariants {α : Type} (ops : List (WalOp α)) :
    RBNode.getColor (runOps ops) = black ∧
    RBNode.NoRedRed (runOps ops) ∧
    (∃ n, RBNode.blackHeight (runOps ops) = some n) ∧
    List.Sorted (· < ·) (RBNode.keysOf (runOps ops)) := by
  obtain ⟨⟨n, hbal⟩, hsort⟩ := runOps_invariant (α := α) ops
  exact ⟨hbal.colorEq, hbal.noRedRed, ⟨n, hbal.blackHeightEq⟩,
    (RBNode.pairsSorted_iff_keys _).mp hsort⟩


end RBTreeGo
